import Mathlib

/-!
# sia-wallet-scanner: gap-limit address scan

A shallow embedding of `cmd/scanner/scanner.go` and `api/api.go`.

* `uint64` values are natural numbers below `2 ^ 64`; every addition and
  subtraction of the source that can wrap is reduced modulo `2 ^ 64`.
* A Go `string` that the program ranges over is the list of runes (code
  points) that `range` yields, `U+FFFD` for a byte that is not valid UTF-8;
  the strings used as map keys and in the JSON response are `String`.
* Everything the program imports from outside the repository (the `unicode`
  tables, the mnemonic dictionary and decoder, the Sia hash, key derivation
  and address codec) is a field of `Lib`; the HTTP exchange, the interrupt
  flag and the CSV writer are fields of `World`.
-/

namespace Scanner

/-! ## Data model -/

/-- Modulus of `uint64` arithmetic. -/
def u64 : Nat := 2 ^ 64

/-- A rune of a Go string, as its code point. -/
abbrev Rune := Nat

/-- A fixed-size byte array or a byte slice, one natural number per byte. -/
abbrev Bytes := List Nat

/-- The `api.AddressUsage` struct of `api/api.go`. -/
structure AddressUsage where
  Address : String
  UsageType : String
deriving DecidableEq, Repr

/-- The `api.AddressesResp` struct of `api/api.go`. -/
structure AddressesResp where
  Message : String
  Type_ : String
  Addresses : List AddressUsage
deriving DecidableEq, Repr

/-- The `address` struct of `scanner.go`: a used address with its index.
`H` stands for `types.UnlockHash`. -/
structure address (H : Type) where
  index : Nat
  addr : H
deriving DecidableEq, Repr

/-- The imported packages the scanner calls. `H` is `types.UnlockHash`. -/
structure Lib (H : Type) where
  /-- Go: `unicode.IsUpper`. -/
  isUpper : Rune → Bool
  /-- Go: `unicode.IsLetter`. -/
  isLetter : Rune → Bool
  /-- Go: `unicode.IsSpace`. -/
  isSpace : Rune → Bool
  /-- Go: `mnemonics.EnglishDictionary`. -/
  englishDictionary : List (List Rune)
  /-- Go: `mnemonics.FromString(s, "english")`; `none` is a returned error. -/
  fromString : List Rune → Option Bytes
  /-- Go: `siacrypto.HashObject` of a 32-byte array. -/
  hashObject : Bytes → Bytes
  /-- Go: the body of `generateAddress`, which only calls `siacrypto` and
  `types`: the unlock hash of the key derived from `(seed, index)`. -/
  generateAddress : Bytes → Nat → H
  /-- Go: `types.UnlockHash.String`. -/
  str : H → String
  /-- Go: `types.UnlockHash.LoadString`; `none` is a returned error. -/
  loadString : String → Option H

/-! ## highestUsedIndex -/

/-- Errors and the one runtime fault of `highestUsedIndex`. -/
inductive LookupError where
  /-- `make` with a capacity the runtime refuses. -/
  | makeslice
  /-- Encoding, building or sending the request, or decoding the response,
  failed. -/
  | transport (msg : String)
  /-- The response type is not `"success"`. -/
  | notSuccess (message : String)
  /-- `LoadString` rejected an address of the response. -/
  | parseAddress (a : String)
deriving DecidableEq, Repr

/-- Largest capacity `make([]types.UnlockHash, 0, n)` accepts: 32-byte
elements and `maxAlloc = 2 ^ 48` bytes on 64-bit targets. An accepted
allocation is taken to succeed. -/
def maxSliceCap : Nat := 2 ^ 43

/-- The values `i` takes in `for i := start; i < end; i++`. -/
def window (start end_ : Nat) : List Nat :=
  (List.range (end_ - start)).map (fun k => start + k)

/-- Go: `usage[key] = i` on a `map[string]uint64`. -/
def mapSet (m : String → Nat) (key : String) (i : Nat) : String → Nat :=
  fun s => if s = key then i else m s

/-- The `usage` map after the first loop of `highestUsedIndex` has run over
the indices `is`, starting from the map `m`. A missing key reads as `0`. -/
def buildUsage {H : Type} (lib : Lib H) (seed : Bytes) (is : List Nat)
    (m : String → Nat) : String → Nat :=
  is.foldl (fun m i => mapSet m (lib.str (lib.generateAddress seed i)) i) m

/-- The `usage` map of `highestUsedIndex` for the window `[start, end)`. -/
def usageMap {H : Type} (lib : Lib H) (seed : Bytes) (start end_ : Nat) : String → Nat :=
  buildUsage lib seed (window start end_) (fun _ => 0)

/-- The `addresses` slice of `highestUsedIndex`: the request body. -/
def batchAddresses {H : Type} (lib : Lib H) (seed : Bytes) (start end_ : Nat) : List H :=
  (window start end_).map (lib.generateAddress seed)

/-- The loop `for _, addr := range respBody.Addresses` of `highestUsedIndex`,
from the running `max` and `used`. -/
def collectUsed {H : Type} (lib : Lib H) (usage : String → Nat) :
    List AddressUsage → Nat → List (address H) → Except LookupError (Nat × List (address H))
  | [], max, used => .ok (max, used)
  | a :: rest, max, used =>
    let max := if max < usage a.Address then usage a.Address else max
    match lib.loadString a.Address with
    | none => .error (.parseAddress a.Address)
    | some uh => collectUsed lib usage rest max (used ++ [⟨usage a.Address, uh⟩])

/-- The comparison `less` of the `sort.Slice` call, as the order it sorts
into: `a` may stand before `b` when `b` is not less than `a`. -/
def byIndex {H : Type} (a b : address H) : Prop := a.index ≤ b.index

instance {H : Type} : DecidableRel (byIndex (H := H)) :=
  fun a b => inferInstanceAs (Decidable (a.index ≤ b.index))

instance byIndex_total {H : Type} : IsTotal (address H) byIndex :=
  ⟨fun a b => Nat.le_total a.index b.index⟩

instance byIndex_trans {H : Type} : IsTrans (address H) byIndex :=
  ⟨fun _ _ _ h₁ h₂ => Nat.le_trans h₁ h₂⟩

/-- Go: `sort.Slice(used, func(i, j) bool { return used[i].index < used[j].index })`.
`sort.Slice` is not stable: it returns the records sorted by `less`, in an
order of the records of equal index that it does not promise. Here they keep
the order they had; the statements below use only that the result is sorted
and holds the same records. -/
def sortUsed {H : Type} (used : List (address H)) : List (address H) :=
  used.insertionSort byIndex

/-- Go: `highestUsedIndex(seed, start, end)`. `http` is the exchange with
`api.siacentral.com`: from the addresses of the request body to the decoded
response, or the error of any step on the way. -/
def highestUsedIndex {H : Type} (lib : Lib H) (http : List H → Except String AddressesResp)
    (seed : Bytes) (start end_ : Nat) : Except LookupError (Nat × List (address H)) :=
  if maxSliceCap < (end_ + u64 - start) % u64 then .error .makeslice
  else
    let addresses := batchAddresses lib seed start end_
    let usage := usageMap lib seed start end_
    match http addresses with
    | .error msg => .error (.transport msg)
    | .ok respBody =>
      if respBody.Type_ ≠ "success" then .error (.notSuccess respBody.Message)
      else
        match collectUsed lib usage respBody.Addresses 0 [] with
        | .error e => .error e
        | .ok (max, used) => .ok (max, sortUsed used)

/-! ## convertRecoveryPhrase -/

/-- The errors `convertRecoveryPhrase` returns, one per `return` of the
source. -/
inductive PhraseError where
  /-- "seed is not valid: all words must be lowercase" -/
  | notLowercase
  /-- "seed is not valid: illegal character" -/
  | illegalChar (c : Rune)
  /-- "seed is not valid: must be 28 or 29 words" -/
  | wordCount
  /-- "unrecognized word ... in seed phrase" -/
  | unrecognizedWord (w : List Rune)
  /-- "unable to decode mnemonic" -/
  | decode
  /-- "seed is not valid: wrong number of bytes ... expected 38" -/
  | wrongLength (n : Nat)
  /-- "unable to validate seed: incorrect checksum" -/
  | checksum
deriving DecidableEq, Repr

/-- Go: `[32]byte{}`. -/
def zeroSeed : Bytes := List.replicate 32 0

/-- The loop `for _, char := range phrase` of `convertRecoveryPhrase`:
the error of the first rune that is rejected, if any. -/
def checkRunes {H : Type} (lib : Lib H) : List Rune → Option PhraseError
  | [] => none
  | char :: rest =>
    if lib.isUpper char then some .notLowercase
    else if !lib.isLetter char && !lib.isSpace char then some (.illegalChar char)
    else checkRunes lib rest

/-- Go: `strings.TrimFunc(s, f)`, which `strings.TrimSpace` is for
`unicode.IsSpace`. -/
def trimFunc (f : Rune → Bool) (s : List Rune) : List Rune :=
  ((s.dropWhile f).reverse.dropWhile f).reverse

/-- Go: `strings.FieldsFunc(s, f)`, which `strings.Fields` is for
`unicode.IsSpace`: the maximal runs of runes not satisfying `f`. `cur` is
the field being read, last rune first; it is empty exactly when the source's
`start` is negative. -/
def fieldsFunc (f : Rune → Bool) : List Rune → List Rune → List (List Rune)
  | cur, [] => if cur = [] then [] else [cur.reverse]
  | cur, r :: rest =>
    if f r then
      if cur = [] then fieldsFunc f [] rest else cur.reverse :: fieldsFunc f [] rest
    else fieldsFunc f (r :: cur) rest

/-- Go: `strings.Fields(strings.TrimSpace(phrase))`. -/
def phraseWords {H : Type} (lib : Lib H) (phrase : List Rune) : List (List Rune) :=
  fieldsFunc lib.isSpace [] (trimFunc lib.isSpace phrase)

/-- Go: `_, ok := englishWordMap[word]`; the map holds every word of
`mnemonics.EnglishDictionary`. -/
def englishWordMap {H : Type} (lib : Lib H) (word : List Rune) : Bool :=
  decide (word ∈ lib.englishDictionary)

/-- The loop `for _, word := range words` of `convertRecoveryPhrase`. -/
def checkWords {H : Type} (lib : Lib H) : List (List Rune) → Option PhraseError
  | [] => none
  | word :: rest =>
    if !englishWordMap lib word then some (.unrecognizedWord word)
    else checkWords lib rest

/-- Go: `strings.Join(words, " ")`. -/
def joinWords (words : List (List Rune)) : List Rune :=
  List.intercalate [32] words

/-- Go: `copy(seed[:], src)` into a zeroed `[32]byte`. -/
def copySeed (src : Bytes) : Bytes :=
  src.take 32 ++ List.replicate (32 - src.length) 0

/-- Go: `convertRecoveryPhrase(phrase)`. The pair is the source's
`(seed, error)`; `none` is a nil error. -/
def convertRecoveryPhrase {H : Type} (lib : Lib H) (phrase : List Rune) :
    Bytes × Option PhraseError :=
  match checkRunes lib phrase with
  | some e => (zeroSeed, some e)
  | none =>
    let words := phraseWords lib phrase
    if words.length ≠ 28 ∧ words.length ≠ 29 then (zeroSeed, some .wordCount)
    else
      match checkWords lib words with
      | some e => (zeroSeed, some e)
      | none =>
        match lib.fromString (joinWords words) with
        | none => (zeroSeed, some .decode)
        | some checksumSeedBytes =>
          if checksumSeedBytes.length ≠ 38 then
            (zeroSeed, some (.wrongLength checksumSeedBytes.length))
          else
            let seed := copySeed checksumSeedBytes
            let checksum := lib.hashObject seed
            if checksumSeedBytes.length ≠ 32 + 6 ∨
                checksum.take 6 ≠ checksumSeedBytes.drop 32 then
              (zeroSeed, some .checksum)
            else (seed, none)

/-! ## main -/

/-- What `main` meets outside the process. -/
structure World (H : Type) where
  /-- The exchange of the `n`-th call of `highestUsedIndex` (from 0). -/
  http : Nat → List H → Except String AddressesResp
  /-- The value of `stopped` read at the top of the `n`-th iteration (from 0). -/
  stopped : Nat → Bool
  /-- Whether `w.Write` returns an error when `n` records were written
  before it. -/
  writeFails : Nat → Bool

/-- Go: `const lookup = 250`. -/
def lookup : Nat := 250

/-- How the scan loop of `main` ends. -/
inductive Exit where
  /-- The loop condition `gap <= lookahead` is false. -/
  | gapExceeded
  /-- The `break` under `if stopped`. -/
  | cancelled
  /-- `log.Fatalln("unable to get highest index:", err)`. -/
  | fatalLookup (e : LookupError)
  /-- `log.Fatalln("unable to write address to output file:", err)`. -/
  | fatalWrite
deriving DecidableEq, Repr

/-- The variables of the scan loop of `main`, with three records of what it
has done: `calls` counts the calls of `highestUsedIndex`, `derived` lists the
indices whose addresses were derived and sent to the service, `written` lists
the records passed to `w.Write`. -/
structure LoopState (H : Type) where
  start : Nat
  end_ : Nat
  detected : Nat
  gap : Nat
  last : Nat
  calls : Nat
  derived : List Nat
  written : List (address H)
deriving DecidableEq, Repr

/-- The loop `for _, addr := range used` of `main`: the records written,
`error` when a `w.Write` failed. -/
def writeUsed {H : Type} (W : World H) :
    List (address H) → List (address H) → Except (List (address H)) (List (address H))
  | written, [] => .ok written
  | written, addr :: rest =>
    if W.writeFails written.length then .error written
    else writeUsed W (written ++ [addr]) rest

/-- The state at `var detected, gap, last uint64` and the init statement
`start, end := start, start+lookup`. -/
def initState {H : Type} (start : Nat) : LoopState H :=
  { start := start, end_ := (start + lookup) % u64, detected := 0, gap := 0, last := 0,
    calls := 0, derived := [], written := [] }

/-- One turn of the `for` loop of `main`: condition, body and post
statement. `error` is the end of the loop, with the state it ends in. -/
def loopStep {H : Type} (lib : Lib H) (W : World H) (seed : Bytes) (lookahead : Nat)
    (st : LoopState H) : Except (LoopState H × Exit) (LoopState H) :=
  if ¬ st.gap ≤ lookahead then .error (st, .gapExceeded)
  else if W.stopped st.calls then .error (st, .cancelled)
  else
    match highestUsedIndex lib (W.http st.calls) seed st.start st.end_ with
    | .error .makeslice => .error ({ st with calls := st.calls + 1 }, .fatalLookup .makeslice)
    | .error e =>
      .error ({ st with calls := st.calls + 1,
                        derived := st.derived ++ window st.start st.end_ }, .fatalLookup e)
    | .ok (max, used) =>
      let last := if max > st.last then max else st.last
      let gap := (st.end_ + u64 - last) % u64
      match writeUsed W st.written used with
      | .error written =>
        .error ({ st with gap := gap, last := last, calls := st.calls + 1,
                          derived := st.derived ++ window st.start st.end_,
                          written := written }, .fatalWrite)
      | .ok written =>
        .ok { start := (st.start + lookup) % u64
              end_ := (st.end_ + lookup) % u64
              detected := (st.detected + used.length) % u64
              gap := gap
              last := last
              calls := st.calls + 1
              derived := st.derived ++ window st.start st.end_
              written := written }

/-- The `for` loop of `main` run for at most `fuel` turns; `none` when the
loop has not ended by then. -/
def scanLoop {H : Type} (lib : Lib H) (W : World H) (seed : Bytes) (lookahead : Nat) :
    Nat → LoopState H → Option (LoopState H × Exit)
  | 0, _ => none
  | fuel + 1, st =>
    match loopStep lib W seed lookahead st with
    | .error r => some r
    | .ok st' => scanLoop lib W seed lookahead fuel st'

/-- The first `k` turns of the loop: the state after them, or the end of the
loop if it comes earlier. -/
def runTurns {H : Type} (lib : Lib H) (W : World H) (seed : Bytes) (lookahead : Nat) :
    Nat → LoopState H → Except (LoopState H × Exit) (LoopState H)
  | 0, st => .ok st
  | k + 1, st =>
    match loopStep lib W seed lookahead st with
    | .error r => .error r
    | .ok st' => runTurns lib W seed lookahead k st'

/-- How `main` ends. -/
inductive MainExit (H : Type) where
  /-- `log.Fatalln("unable to parse seed:", err)`. -/
  | badSeed (e : PhraseError)
  /-- The scan loop ended. -/
  | scanned (st : LoopState H) (e : Exit)

/-- Go: `main`, from the flags `-lookahead` and `-start` and the line read
from standard input, once that line is read and the output file created. -/
def main {H : Type} (lib : Lib H) (W : World H) (lookahead start : Nat) (phrase : List Rune)
    (fuel : Nat) : Option (MainExit H) :=
  match convertRecoveryPhrase lib phrase with
  | (_, some e) => some (.badSeed e)
  | (seed, none) =>
    match scanLoop lib W seed lookahead fuel (initState start) with
    | none => none
    | some (st, e) => some (.scanned st e)

/-! ## The output file -/

/-- Go: the record `main` passes to `w.Write` for a used address:
`strconv.FormatUint(addr.index, 10)` and `addr.addr.String()`. -/
def csvFields {H : Type} (lib : Lib H) (r : address H) : List String :=
  [toString r.index, lib.str r.addr]

/-- Go: what `csv.Writer.Write` hands to its `bufio.Writer` for a record
whose fields need no quotes, as decimal numbers and hexadecimal addresses do:
the fields separated by commas, then a newline. -/
def csvLine (fields : List String) : List Char :=
  (String.intercalate "," fields).data ++ ['\n']

/-- All that `main` has handed to the `csv.Writer`, in order. -/
def csvStream {H : Type} (lib : Lib H) (written : List (address H)) : List Char :=
  written.flatMap (fun r => csvLine (csvFields lib r))

/-- Go: the buffer size of the `bufio.Writer` that `csv.NewWriter` wraps
around the file. -/
def bufioSize : Nat := 4096

/-- What a `bufio.Writer` that was never flushed has passed on of the stream
written to it in pieces shorter than its buffer: it passes on a full buffer
when the next piece does not fit, so the last 1 to 4096 bytes stay in the
buffer. The stream is ASCII, one byte per character. -/
def forwarded (stream : List Char) : List Char :=
  stream.take (bufioSize * ((stream.length - 1) / bufioSize))

/-- Whether `main` ends by leaving its loop and returning, so that the
deferred `w.Flush()` and `f.Close()` run. `log.Fatalln` ends the process by
`os.Exit(1)`, which runs no deferred call. -/
def Exit.returns : Exit → Bool
  | .gapExceeded => true
  | .cancelled => true
  | .fatalLookup _ => false
  | .fatalWrite => false

/-- The content of `addresses.csv` when `main` has ended in the state `st`
by `e`; after a failed write, the most it can be. -/
def fileAtExit {H : Type} (lib : Lib H) (st : LoopState H) (e : Exit) : List Char :=
  if e.returns then csvStream lib st.written else forwarded (csvStream lib st.written)

/-! ## Vocabulary of the statements -/

/-- The highest index among the records `l`, `0` for no record. -/
def maxIndex {H : Type} (l : List (address H)) : Nat :=
  l.foldr (fun r m => max r.index m) 0

/-- The string forms of the addresses derived for the window `[start, end)`. -/
def batchStrings {H : Type} (lib : Lib H) (seed : Bytes) (start end_ : Nat) : List String :=
  (window start end_).map (fun i => lib.str (lib.generateAddress seed i))

/-- A service that answers every request with success and no used address. -/
def silentHttp {H : Type} : Nat → List H → Except String AddressesResp :=
  fun _ _ => .ok { Message := "", Type_ := "success", Addresses := [] }

/-- The state a turn of the loop ends in, whether the loop goes on or not. -/
def afterTurn {H : Type} : Except (LoopState H × Exit) (LoopState H) → LoopState H
  | .ok st => st
  | .error (st, _) => st

/-- The window of the turn `j` (from 0) of a scan that starts at `start`. -/
def turnWindow (start j : Nat) : List Nat :=
  window ((start + lookup * j) % u64) ((start + lookup * (j + 1)) % u64)

/-- The records the call of `highestUsedIndex` in turn `j` (from 0) returns,
none if it fails. -/
def turnRecords {H : Type} (lib : Lib H) (W : World H) (seed : Bytes) (start j : Nat) :
    List (address H) :=
  match highestUsedIndex lib (W.http j) seed ((start + lookup * j) % u64)
      ((start + lookup * (j + 1)) % u64) with
  | .ok (_, used) => used
  | .error _ => []

/-! ## A small library instance, for evaluating the definitions

The `unicode` predicates agree with Go on the ASCII range; the codec writes
the address `h` as `h` letters `a`. -/

/-- An instance of `Lib` with natural numbers as unlock hashes. -/
def toyLib : Lib Nat :=
  { isUpper := fun c => decide (65 ≤ c ∧ c ≤ 90)
    isLetter := fun c => decide ((65 ≤ c ∧ c ≤ 90) ∨ (97 ≤ c ∧ c ≤ 122))
    isSpace := fun c => decide (c = 9 ∨ c = 10 ∨ c = 11 ∨ c = 12 ∨ c = 13 ∨ c = 32)
    englishDictionary := [[97], [98]]
    fromString := fun s =>
      some (List.replicate 32 7 ++ List.replicate 6 (if s.head? = some 97 then 7 else 0))
    hashObject := fun b => b
    generateAddress := fun _ i => i
    str := fun h => String.mk (List.replicate h 'a')
    loadString := fun s => if s.data.all (fun c => c == 'a') then some s.length else none }

/-- The string form of the address of index `i` under `toyLib`. -/
def toyAddr (i : Nat) : AddressUsage :=
  { Address := String.mk (List.replicate i 'a'), UsageType := "" }

/-- The phrase of `n` words, each the single rune `c`, one space between
neighbours. -/
def repeatWord (n : Nat) (c : Rune) : List Rune :=
  joinWords (List.replicate n [c])

/-- A successful response listing the addresses `l`. -/
def success (l : List AddressUsage) : Except String AddressesResp :=
  .ok { Message := "", Type_ := "success", Addresses := l }

/-- A world without interrupt or write failure whose service reports the
addresses of indices 5 and 12 in the first call and nothing afterwards. -/
def fiveTwelve : World Nat :=
  { http := fun n _ => if n = 0 then success [toyAddr 5, toyAddr 12] else success []
    stopped := fun _ => false
    writeFails := fun _ => false }

/-- A world without interrupt or write failure whose service never reports a
used address. -/
def silentWorld : World Nat :=
  { http := silentHttp, stopped := fun _ => false, writeFails := fun _ => false }

/-- The world `fiveTwelve` with the interrupt flag set from the top of
turn `n` (from 0) on. -/
def interruptedAt (n : Nat) : World Nat :=
  { http := fiveTwelve.http, stopped := fun k => decide (n ≤ k), writeFails := fun _ => false }

/-- A world without interrupt or write failure whose service reports the
address of index 249 in the first call, that of index 250 in the second and
nothing afterwards. -/
def adjacent : World Nat :=
  { http := fun n _ =>
      if n = 0 then success [toyAddr 249] else if n = 1 then success [toyAddr 250]
      else success []
    stopped := fun _ => false
    writeFails := fun _ => false }

/-- A world without interrupt or write failure whose service reports the
addresses of indices 5 and 12 in the first call and cannot be reached
afterwards. -/
def unreachableAfterFirst : World Nat :=
  { http := fun n _ => if n = 0 then success [toyAddr 5, toyAddr 12] else .error "timeout"
    stopped := fun _ => false
    writeFails := fun _ => false }

/-- A world without interrupt or write failure whose service answers every
batch with those of its addresses whose index is in `U`, under the small
library, where the address of an index is the index. -/
def oracleOf (U : Nat → Bool) : World Nat :=
  { http := fun _ req => success ((req.filter U).map toyAddr)
    stopped := fun _ => false
    writeFails := fun _ => false }

/-- The set of the indices 5, 12 and 260. -/
def usedThree (i : Nat) : Bool := i == 5 || i == 12 || i == 260

/-- A world without interrupt or write failure whose service lists, in its
answer to the first batch, the address of index 499, which belongs to the
second batch, and reports nothing afterwards. -/
def reportsAhead : World Nat :=
  { http := fun n _ => if n = 0 then success [toyAddr 499] else success []
    stopped := fun _ => false
    writeFails := fun _ => false }

set_option maxRecDepth 1000000

/-! ## The window and the usage map -/

theorem mem_window {s e i : Nat} : i ∈ window s e ↔ s ≤ i ∧ i < e := by
  unfold window
  simp only [List.mem_map, List.mem_range]
  constructor
  · rintro ⟨k, hk, rfl⟩
    omega
  · intro h
    exact ⟨i - s, by omega, by omega⟩

theorem window_length (s e : Nat) : (window s e).length = e - s := by
  simp [window]

theorem buildUsage_cons {H : Type} (lib : Lib H) (seed : Bytes) (i : Nat) (is : List Nat)
    (m : String → Nat) :
    buildUsage lib seed (i :: is) m
      = buildUsage lib seed is (mapSet m (lib.str (lib.generateAddress seed i)) i) := rfl

/-- A key read from the map built over `is` is either untouched, and then no
index of `is` has it as string form, or it reads as an index of `is` that
has it as string form. -/
theorem buildUsage_cases {H : Type} (lib : Lib H) (seed : Bytes) (key : String) :
    ∀ (is : List Nat) (m : String → Nat),
      (buildUsage lib seed is m key = m key ∧
          ∀ i ∈ is, lib.str (lib.generateAddress seed i) ≠ key) ∨
      (buildUsage lib seed is m key ∈ is ∧
          lib.str (lib.generateAddress seed (buildUsage lib seed is m key)) = key) := by
  intro is
  induction is with
  | nil => intro m; left; exact ⟨rfl, by simp⟩
  | cons i is ih =>
    intro m
    rw [buildUsage_cons]
    rcases ih (mapSet m (lib.str (lib.generateAddress seed i)) i) with ⟨hval, hno⟩ | ⟨hmem, hstr⟩
    · by_cases hk : key = lib.str (lib.generateAddress seed i)
      · right
        have hi : buildUsage lib seed is
            (mapSet m (lib.str (lib.generateAddress seed i)) i) key = i := by
          rw [hval]; simp [mapSet, hk]
        rw [hi]
        exact ⟨List.mem_cons_self _ _, hk.symm⟩
      · left
        refine ⟨?_, ?_⟩
        · rw [hval]; simp [mapSet, hk]
        · intro j hj
          rcases List.mem_cons.1 hj with rfl | hj
          · exact fun h => hk h.symm
          · exact hno j hj
    · right
      exact ⟨List.mem_cons_of_mem _ hmem, hstr⟩

/-- A key of the usage map of a window reads `0` when no address of the
window has it as string form, and otherwise as an index of the window that
has it as string form. -/
theorem usageMap_cases {H : Type} (lib : Lib H) (seed : Bytes) (start end_ : Nat)
    (key : String) :
    (usageMap lib seed start end_ key = 0 ∧ key ∉ batchStrings lib seed start end_) ∨
    ((start ≤ usageMap lib seed start end_ key ∧ usageMap lib seed start end_ key < end_) ∧
      lib.str (lib.generateAddress seed (usageMap lib seed start end_ key)) = key) := by
  unfold usageMap
  rcases buildUsage_cases lib seed key (window start end_) (fun _ => 0) with ⟨h0, hno⟩ | ⟨hmem, hstr⟩
  · left
    refine ⟨h0, ?_⟩
    unfold batchStrings
    simp only [List.mem_map, not_exists, not_and]
    intro i hi
    exact hno i hi
  · right
    exact ⟨mem_window.1 hmem, hstr⟩

theorem usageMap_of_mem {H : Type} (lib : Lib H) (seed : Bytes) (start end_ : Nat)
    (key : String) (hkey : key ∈ batchStrings lib seed start end_) :
    (start ≤ usageMap lib seed start end_ key ∧ usageMap lib seed start end_ key < end_) ∧
      lib.str (lib.generateAddress seed (usageMap lib seed start end_ key)) = key := by
  rcases usageMap_cases lib seed start end_ key with ⟨_, hno⟩ | h
  · exact absurd hkey hno
  · exact h

theorem usageMap_zero_or_lt {H : Type} (lib : Lib H) (seed : Bytes) (start end_ : Nat)
    (key : String) :
    usageMap lib seed start end_ key = 0 ∨
      (start ≤ usageMap lib seed start end_ key ∧ usageMap lib seed start end_ key < end_) := by
  rcases usageMap_cases lib seed start end_ key with ⟨h, _⟩ | ⟨h, _⟩
  · exact Or.inl h
  · exact Or.inr h

/-! ## The response loop and the sort -/

theorem collectUsed_ok {H : Type} (lib : Lib H) (usage : String → Nat) :
    ∀ (l : List AddressUsage) (mx : Nat) (used : List (address H)) (m : Nat)
      (u : List (address H)),
      collectUsed lib usage l mx used = .ok (m, u) →
      u.map (fun r => r.index) = used.map (fun r => r.index) ++ l.map (fun a => usage a.Address) ∧
      (∀ r ∈ u, r ∈ used ∨
        ∃ a ∈ l, r.index = usage a.Address ∧ lib.loadString a.Address = some r.addr) ∧
      mx ≤ m ∧ (∀ a ∈ l, usage a.Address ≤ m) ∧ (m = mx ∨ ∃ a ∈ l, m = usage a.Address) := by
  intro l
  induction l with
  | nil =>
    intro mx used m u h
    simp only [collectUsed, Except.ok.injEq, Prod.mk.injEq] at h
    obtain ⟨rfl, rfl⟩ := h
    simp
  | cons a rest ih =>
    intro mx used m u h
    simp only [collectUsed] at h
    cases hload : lib.loadString a.Address with
    | none => rw [hload] at h; cases h
    | some uh =>
      rw [hload] at h
      obtain ⟨hmap, hmem, hle, hall, hex⟩ := ih _ _ _ _ h
      refine ⟨?_, ?_, ?_, ?_, ?_⟩
      · rw [hmap]; simp
      · intro r hr
        rcases hmem r hr with hr | ⟨b, hb, hidx, hl⟩
        · rcases List.mem_append.1 hr with hr | hr
          · exact Or.inl hr
          · right
            rw [List.mem_singleton] at hr
            subst hr
            exact ⟨a, List.mem_cons_self _ _, rfl, hload⟩
        · exact Or.inr ⟨b, List.mem_cons_of_mem _ hb, hidx, hl⟩
      · split_ifs at hle <;> omega
      · intro b hb
        rcases List.mem_cons.1 hb with rfl | hb
        · split_ifs at hle <;> omega
        · exact hall b hb
      · rcases hex with hm | ⟨b, hb, hm⟩
        · split_ifs at hm with hlt
          · exact Or.inr ⟨a, List.mem_cons_self _ _, hm⟩
          · exact Or.inl hm
        · exact Or.inr ⟨b, List.mem_cons_of_mem _ hb, hm⟩

theorem sortUsed_perm {H : Type} (u : List (address H)) : (sortUsed u).Perm u :=
  List.perm_insertionSort byIndex u

theorem sortUsed_sorted {H : Type} (u : List (address H)) :
    ((sortUsed u).map (fun r => r.index)).Sorted (· ≤ ·) := by
  have h : (sortUsed u).Sorted byIndex := List.sorted_insertionSort byIndex u
  exact List.pairwise_map.2 h

/-- What a successful call of `highestUsedIndex` went through. -/
theorem highestUsedIndex_ok {H : Type} (lib : Lib H) (http : List H → Except String AddressesResp)
    (seed : Bytes) (start end_ mx : Nat) (used : List (address H))
    (h : highestUsedIndex lib http seed start end_ = .ok (mx, used)) :
    (end_ + u64 - start) % u64 ≤ maxSliceCap ∧
    ∃ resp u, http (batchAddresses lib seed start end_) = .ok resp ∧ resp.Type_ = "success" ∧
      collectUsed lib (usageMap lib seed start end_) resp.Addresses 0 [] = .ok (mx, u) ∧
      used = sortUsed u := by
  unfold highestUsedIndex at h
  split_ifs at h with hcap
  refine ⟨by omega, ?_⟩
  simp only at h
  cases hh : http (batchAddresses lib seed start end_) with
  | error msg => rw [hh] at h; cases h
  | ok resp =>
    rw [hh] at h
    simp only at h
    split_ifs at h with hty
    cases hc : collectUsed lib (usageMap lib seed start end_) resp.Addresses 0 [] with
    | error e => rw [hc] at h; cases h
    | ok r =>
      obtain ⟨m, u⟩ := r
      rw [hc] at h
      simp only [Except.ok.injEq, Prod.mk.injEq] at h
      obtain ⟨rfl, rfl⟩ := h
      exact ⟨resp, u, rfl, not_not.1 hty, hc, rfl⟩

theorem collectUsed_total {H : Type} (lib : Lib H) (usage : String → Nat) :
    ∀ (l : List AddressUsage) (mx : Nat) (used : List (address H)),
      (∀ a ∈ l, ∃ uh, lib.loadString a.Address = some uh) →
      ∃ r, collectUsed lib usage l mx used = .ok r := by
  intro l
  induction l with
  | nil => intro mx used _; exact ⟨_, rfl⟩
  | cons a rest ih =>
    intro mx used hl
    obtain ⟨uh, huh⟩ := hl a (List.mem_cons_self _ _)
    simp only [collectUsed, huh]
    exact ih _ _ (fun b hb => hl b (List.mem_cons_of_mem _ hb))

/-- A call whose capacity, exchange, response type and response addresses
are all accepted returns. -/
theorem highestUsedIndex_total {H : Type} (lib : Lib H)
    (http : List H → Except String AddressesResp) (seed : Bytes) (start end_ : Nat)
    (resp : AddressesResp)
    (hcap : (end_ + u64 - start) % u64 ≤ maxSliceCap)
    (hresp : http (batchAddresses lib seed start end_) = .ok resp)
    (hty : resp.Type_ = "success")
    (hload : ∀ a ∈ resp.Addresses, ∃ uh, lib.loadString a.Address = some uh) :
    ∃ mx used, highestUsedIndex lib http seed start end_ = .ok (mx, used) := by
  obtain ⟨⟨m, u⟩, hr⟩ := collectUsed_total lib (usageMap lib seed start end_) resp.Addresses 0 [] hload
  refine ⟨m, sortUsed u, ?_⟩
  unfold highestUsedIndex
  rw [if_neg (by omega)]
  simp only [hresp, hty, ne_eq, not_true_eq_false, if_false, hr]

theorem maxIndex_nil {H : Type} : maxIndex ([] : List (address H)) = 0 := rfl

theorem maxIndex_cons {H : Type} (r : address H) (l : List (address H)) :
    maxIndex (r :: l) = max r.index (maxIndex l) := rfl

theorem maxIndex_le_iff {H : Type} (l : List (address H)) (n : Nat) :
    maxIndex l ≤ n ↔ ∀ r ∈ l, r.index ≤ n := by
  induction l with
  | nil => simp [maxIndex_nil]
  | cons r l ih => simp [maxIndex_cons, ih]

theorem maxIndex_zero_or_mem {H : Type} (l : List (address H)) :
    maxIndex l = 0 ∨ ∃ r ∈ l, r.index = maxIndex l := by
  induction l with
  | nil => exact Or.inl rfl
  | cons r l ih =>
    rw [maxIndex_cons]
    rcases le_total r.index (maxIndex l) with h | h
    · rw [max_eq_right h]
      rcases ih with h0 | ⟨x, hx, hxe⟩
      · exact Or.inl h0
      · exact Or.inr ⟨x, List.mem_cons_of_mem _ hx, hxe⟩
    · rw [max_eq_left h]
      exact Or.inr ⟨r, List.mem_cons_self _ _, rfl⟩

theorem maxIndex_eq {H : Type} (l : List (address H)) (m : Nat)
    (hle : ∀ r ∈ l, r.index ≤ m) (hex : m = 0 ∨ ∃ r ∈ l, r.index = m) : maxIndex l = m := by
  apply le_antisymm
  · exact (maxIndex_le_iff l m).2 hle
  · rcases hex with h0 | ⟨r, hr, hre⟩
    · omega
    · rw [← hre]
      exact (maxIndex_le_iff l (maxIndex l)).1 le_rfl r hr

theorem maxIndex_append {H : Type} (l₁ l₂ : List (address H)) :
    maxIndex (l₁ ++ l₂) = max (maxIndex l₁) (maxIndex l₂) := by
  induction l₁ with
  | nil => simp [maxIndex_nil]
  | cons r l ih => simp [maxIndex_cons, ih, max_assoc]

/-- The indices of the records a successful call returns, and its `max`. -/
theorem highestUsedIndex_records {H : Type} (lib : Lib H)
    (http : List H → Except String AddressesResp) (seed : Bytes) (start end_ mx : Nat)
    (used : List (address H)) (resp : AddressesResp)
    (hresp : http (batchAddresses lib seed start end_) = .ok resp)
    (hcall : highestUsedIndex lib http seed start end_ = .ok (mx, used)) :
    (used.map (fun r => r.index)).Perm
        (resp.Addresses.map (fun a => usageMap lib seed start end_ a.Address)) ∧
    (∀ r ∈ used, ∃ a ∈ resp.Addresses, r.index = usageMap lib seed start end_ a.Address ∧
        lib.loadString a.Address = some r.addr) ∧
    (∀ a ∈ resp.Addresses, usageMap lib seed start end_ a.Address ≤ mx) ∧
    (mx = 0 ∨ ∃ a ∈ resp.Addresses, mx = usageMap lib seed start end_ a.Address) := by
  obtain ⟨_, resp', u, hresp', _, hcol, rfl⟩ := highestUsedIndex_ok lib http seed start end_ mx used hcall
  rw [hresp] at hresp'
  cases hresp'
  obtain ⟨hmap, hmem, _, hall, hex⟩ := collectUsed_ok lib _ _ _ _ _ _ hcol
  refine ⟨?_, ?_, hall, hex⟩
  · have hp := (sortUsed_perm u).map (fun r => r.index)
    rw [hmap] at hp
    simpa using hp
  · intro r hr
    have hr' : r ∈ u := (sortUsed_perm u).mem_iff.1 hr
    rcases hmem r hr' with h | h
    · cases h
    · exact h

theorem writeUsed_ok {H : Type} (W : World H) (hw : ∀ n, W.writeFails n = false) :
    ∀ (used written : List (address H)), writeUsed W written used = .ok (written ++ used) := by
  intro used
  induction used with
  | nil => intro written; simp [writeUsed]
  | cons r rest ih =>
    intro written
    simp only [writeUsed, hw, Bool.false_eq_true, if_false]
    rw [ih]
    simp

/-! ## Claims about highestUsedIndex -/

/-- C3: reverse mapping. When the service answers a batch with success and
only with addresses derived for the batch, the address codec reads back what
it wrote for the batch and `make` accepts the capacity `end - start`,
`highestUsedIndex` returns; every record it
returns has an index of the window and carries the address derived at that
index, which for a derivation injective on the window is the only index of
the window with that address; and it returns as many records as the response
lists addresses. -/
theorem highestUsedIndex_reverse_mapping {H : Type} (lib : Lib H)
    (http : List H → Except String AddressesResp) (seed : Bytes) (start end_ : Nat)
    (resp : AddressesResp)
    (hinj : ∀ i ∈ window start end_, ∀ j ∈ window start end_,
      lib.generateAddress seed i = lib.generateAddress seed j → i = j)
    (hcodec : ∀ i ∈ window start end_,
      lib.loadString (lib.str (lib.generateAddress seed i)) = some (lib.generateAddress seed i))
    (hcap : (end_ + u64 - start) % u64 ≤ maxSliceCap)
    (hresp : http (batchAddresses lib seed start end_) = .ok resp)
    (hty : resp.Type_ = "success")
    (hbatch : ∀ a ∈ resp.Addresses, a.Address ∈ batchStrings lib seed start end_) :
    ∃ mx used, highestUsedIndex lib http seed start end_ = .ok (mx, used) ∧
      (∀ r ∈ used, start ≤ r.index ∧ r.index < end_ ∧
        r.addr = lib.generateAddress seed r.index ∧
        ∀ i ∈ window start end_, lib.generateAddress seed i = r.addr → i = r.index) ∧
      used.length = resp.Addresses.length := by
  have hload : ∀ a ∈ resp.Addresses, ∃ uh, lib.loadString a.Address = some uh := by
    intro a ha
    obtain ⟨hwin, hstr⟩ := usageMap_of_mem lib seed start end_ a.Address (hbatch a ha)
    refine ⟨lib.generateAddress seed (usageMap lib seed start end_ a.Address), ?_⟩
    have := hcodec _ (mem_window.2 hwin)
    rwa [hstr] at this
  obtain ⟨mx, used, hcall⟩ :=
    highestUsedIndex_total lib http seed start end_ resp hcap hresp hty hload
  obtain ⟨hperm, hmem, _, _⟩ :=
    highestUsedIndex_records lib http seed start end_ mx used resp hresp hcall
  refine ⟨mx, used, hcall, ?_, ?_⟩
  · intro r hr
    obtain ⟨a, ha, hidx, hl⟩ := hmem r hr
    obtain ⟨hwin, hstr⟩ := usageMap_of_mem lib seed start end_ a.Address (hbatch a ha)
    have hc := hcodec _ (mem_window.2 hwin)
    rw [hstr, hl, ← hidx] at hc
    have haddr : r.addr = lib.generateAddress seed r.index := Option.some.inj hc
    rw [← hidx] at hwin
    refine ⟨hwin.1, hwin.2, haddr, ?_⟩
    intro i hi hgi
    exact hinj i hi r.index (mem_window.2 hwin) (hgi.trans haddr)
  · have := hperm.length_eq
    simpa using this

/-- C3 at a concrete batch: the window `[3, 6)` of the small library, the
service reporting the addresses of indices 5 and 3. -/
theorem highestUsedIndex_reverse_mapping_witness :
    ∃ mx used, highestUsedIndex toyLib (fun _ => success [toyAddr 5, toyAddr 3]) [] 3 6
        = .ok (mx, used) ∧
      (∀ r ∈ used, 3 ≤ r.index ∧ r.index < 6 ∧
        r.addr = toyLib.generateAddress [] r.index ∧
        ∀ i ∈ window 3 6, toyLib.generateAddress [] i = r.addr → i = r.index) ∧
      used.length = 2 :=
  highestUsedIndex_reverse_mapping toyLib (fun _ => success [toyAddr 5, toyAddr 3]) [] 3 6
    { Message := "", Type_ := "success", Addresses := [toyAddr 5, toyAddr 3] }
    (fun _ _ _ _ h => h) (by decide) (by decide) rfl rfl (by decide)

/-- C4, as amended: the records a successful call returns are ascending by
index, each index at least the one before it; they are strictly ascending
when the response lists pairwise distinct addresses that were all derived
for the batch; and `main`, when no write fails, passes them to the writer in
that order. -/
theorem highestUsedIndex_ascending {H : Type} (lib : Lib H)
    (http : List H → Except String AddressesResp) (seed : Bytes) (start end_ mx : Nat)
    (used : List (address H)) (resp : AddressesResp)
    (hresp : http (batchAddresses lib seed start end_) = .ok resp)
    (hcall : highestUsedIndex lib http seed start end_ = .ok (mx, used)) :
    (used.map (fun r => r.index)).Sorted (· ≤ ·) ∧
    ((resp.Addresses.map (fun a => a.Address)).Nodup →
      (∀ a ∈ resp.Addresses, a.Address ∈ batchStrings lib seed start end_) →
      (used.map (fun r => r.index)).Sorted (· < ·)) ∧
    (∀ (W : World H) (written : List (address H)), (∀ n, W.writeFails n = false) →
      writeUsed W written used = .ok (written ++ used)) := by
  obtain ⟨hperm, _, _, _⟩ :=
    highestUsedIndex_records lib http seed start end_ mx used resp hresp hcall
  obtain ⟨_, _, u, _, _, _, rfl⟩ := highestUsedIndex_ok lib http seed start end_ mx used hcall
  refine ⟨sortUsed_sorted u, ?_, ?_⟩
  · intro hnd hbatch
    apply (sortUsed_sorted u).lt_of_le
    rw [hperm.nodup_iff]
    have hnd' : ((resp.Addresses.map (fun a => a.Address)).map
        (usageMap lib seed start end_)).Nodup := by
      apply List.Nodup.map_on _ hnd
      intro x hx y hy hxy
      obtain ⟨a, ha, rfl⟩ := List.mem_map.1 hx
      obtain ⟨b, hb, rfl⟩ := List.mem_map.1 hy
      have h1 := (usageMap_of_mem lib seed start end_ a.Address (hbatch a ha)).2
      have h2 := (usageMap_of_mem lib seed start end_ b.Address (hbatch b hb)).2
      rw [← h1, ← h2, hxy]
    simpa [List.map_map] using hnd'
  · intro W written hw
    exact writeUsed_ok W hw (sortUsed u) written

/-- C4 at a concrete batch: indices 12 and 5 reported in the window
`[0, 250)`. -/
theorem highestUsedIndex_ascending_witness :
    ([5, 12] : List Nat).Sorted (· ≤ ·) ∧
    ((["aaaaaaaaaaaa", "aaaaa"] : List String).Nodup →
      (∀ a ∈ [toyAddr 12, toyAddr 5], a.Address ∈ batchStrings toyLib [] 0 250) →
      ([5, 12] : List Nat).Sorted (· < ·)) ∧
    (∀ (W : World Nat) (written : List (address Nat)), (∀ n, W.writeFails n = false) →
      writeUsed W written [⟨5, 5⟩, ⟨12, 12⟩] = .ok (written ++ [⟨5, 5⟩, ⟨12, 12⟩])) :=
  highestUsedIndex_ascending toyLib (fun _ => success [toyAddr 12, toyAddr 5]) [] 0 250 12
    [⟨5, 5⟩, ⟨12, 12⟩] { Message := "", Type_ := "success", Addresses := [toyAddr 12, toyAddr 5] }
    rfl (by rfl)

/-- C4 as stated fails: a response that lists the address of index 5 twice
is answered with two records of index 5, which are not strictly ascending. -/
theorem highestUsedIndex_not_strictly_ascending :
    ∃ mx used, highestUsedIndex toyLib (fun _ => success [toyAddr 5, toyAddr 5]) [] 0 250
        = .ok (mx, used) ∧
      used = [⟨5, 5⟩, ⟨5, 5⟩] ∧ ¬ (used.map (fun r => r.index)).Sorted (· < ·) :=
  ⟨5, [⟨5, 5⟩, ⟨5, 5⟩], by rfl, rfl, by decide⟩

/-- C5: the `max` a successful call returns bounds the index of every record
it returns and is the index of one of them when there is any; it is `0` when
no record is returned, and when none of the addresses derived for the batch
is in the response. -/
theorem highestUsedIndex_max {H : Type} (lib : Lib H)
    (http : List H → Except String AddressesResp) (seed : Bytes) (start end_ mx : Nat)
    (used : List (address H)) (resp : AddressesResp)
    (hresp : http (batchAddresses lib seed start end_) = .ok resp)
    (hcall : highestUsedIndex lib http seed start end_ = .ok (mx, used)) :
    mx = maxIndex used ∧
    (∀ r ∈ used, r.index ≤ mx) ∧
    (used ≠ [] → ∃ r ∈ used, r.index = mx) ∧
    (used = [] → mx = 0) ∧
    ((∀ a ∈ resp.Addresses, a.Address ∉ batchStrings lib seed start end_) → mx = 0) := by
  obtain ⟨hperm, hmem, hall, hex⟩ :=
    highestUsedIndex_records lib http seed start end_ mx used resp hresp hcall
  have hle : ∀ r ∈ used, r.index ≤ mx := by
    intro r hr
    obtain ⟨a, ha, hidx, _⟩ := hmem r hr
    rw [hidx]
    exact hall a ha
  have hin : mx = 0 ∨ ∃ r ∈ used, r.index = mx := by
    rcases hex with h0 | ⟨a, ha, hm⟩
    · exact Or.inl h0
    · right
      have : mx ∈ used.map (fun r => r.index) := by
        rw [hperm.mem_iff, hm]
        exact List.mem_map.2 ⟨a, ha, rfl⟩
      obtain ⟨r, hr, hre⟩ := List.mem_map.1 this
      exact ⟨r, hr, hre⟩
  have hnil : used = [] → mx = 0 := by
    intro hu
    rcases hin with h0 | ⟨r, hr, _⟩
    · exact h0
    · rw [hu] at hr
      cases hr
  refine ⟨(maxIndex_eq used mx hle hin).symm, hle, ?_, hnil, ?_⟩
  · intro hne
    rcases hin with h0 | h
    · obtain ⟨r, hr⟩ := List.exists_mem_of_ne_nil used hne
      exact ⟨r, hr, by have := hle r hr; omega⟩
    · exact h
  · intro hnone
    rcases hex with h0 | ⟨a, ha, hm⟩
    · exact h0
    · rcases usageMap_cases lib seed start end_ a.Address with ⟨hz, _⟩ | ⟨hwin, hstr⟩
      · omega
      · exfalso
        apply hnone a ha
        rw [← hstr]
        exact List.mem_map.2 ⟨_, mem_window.2 hwin, rfl⟩

/-- C5 at a concrete batch: indices 12 and 5 reported in the window
`[0, 250)` give `max = 12`. -/
theorem highestUsedIndex_max_witness :
    12 = maxIndex ([⟨5, 5⟩, ⟨12, 12⟩] : List (address Nat)) ∧
    (∀ r ∈ ([⟨5, 5⟩, ⟨12, 12⟩] : List (address Nat)), r.index ≤ 12) ∧
    (([⟨5, 5⟩, ⟨12, 12⟩] : List (address Nat)) ≠ [] →
      ∃ r ∈ ([⟨5, 5⟩, ⟨12, 12⟩] : List (address Nat)), r.index = 12) ∧
    (([⟨5, 5⟩, ⟨12, 12⟩] : List (address Nat)) = [] → 12 = 0) ∧
    ((∀ a ∈ [toyAddr 12, toyAddr 5], a.Address ∉ batchStrings toyLib [] 0 250) → 12 = 0) :=
  highestUsedIndex_max toyLib (fun _ => success [toyAddr 12, toyAddr 5]) [] 0 250 12
    [⟨5, 5⟩, ⟨12, 12⟩] { Message := "", Type_ := "success", Addresses := [toyAddr 12, toyAddr 5] }
    rfl (by rfl)

/-! ## The checks of convertRecoveryPhrase -/

theorem checkRunes_none_iff {H : Type} (lib : Lib H) (phrase : List Rune) :
    checkRunes lib phrase = none ↔
      ∀ c ∈ phrase, lib.isUpper c = false ∧ (lib.isLetter c = true ∨ lib.isSpace c = true) := by
  induction phrase with
  | nil => simp [checkRunes]
  | cons c rest ih =>
    simp only [checkRunes, List.mem_cons, forall_eq_or_imp]
    cases hu : lib.isUpper c <;> cases hl : lib.isLetter c <;> cases hs : lib.isSpace c <;>
      simp [ih]

theorem checkRunes_some {H : Type} (lib : Lib H) (phrase : List Rune) (e : PhraseError)
    (h : checkRunes lib phrase = some e) :
    e = .notLowercase ∨ ∃ c, e = .illegalChar c := by
  induction phrase with
  | nil => simp [checkRunes] at h
  | cons c rest ih =>
    simp only [checkRunes] at h
    split_ifs at h with h1 h2
    · left; exact (Option.some.inj h).symm
    · right; exact ⟨c, (Option.some.inj h).symm⟩
    · exact ih h

theorem checkWords_none_iff {H : Type} (lib : Lib H) (words : List (List Rune)) :
    checkWords lib words = none ↔ ∀ w ∈ words, w ∈ lib.englishDictionary := by
  induction words with
  | nil => simp [checkWords]
  | cons w rest ih =>
    simp only [checkWords, englishWordMap, List.mem_cons, forall_eq_or_imp]
    by_cases hw : w ∈ lib.englishDictionary <;> simp [hw, ih]

theorem checkWords_some {H : Type} (lib : Lib H) (words : List (List Rune)) (e : PhraseError)
    (h : checkWords lib words = some e) :
    ∃ w ∈ words, w ∉ lib.englishDictionary ∧ e = .unrecognizedWord w := by
  induction words with
  | nil => simp [checkWords] at h
  | cons w rest ih =>
    simp only [checkWords, englishWordMap] at h
    by_cases hw : w ∈ lib.englishDictionary
    · simp only [hw, decide_True, Bool.not_true, Bool.false_eq_true, if_false] at h
      obtain ⟨x, hx, hxd, hxe⟩ := ih h
      exact ⟨x, List.mem_cons_of_mem _ hx, hxd, hxe⟩
    · simp only [hw, decide_False, Bool.not_false, if_true] at h
      exact ⟨w, List.mem_cons_self _ _, hw, (Option.some.inj h).symm⟩

theorem mem_dropWhile_of_not {f : Rune → Bool} {c : Rune} (hc : f c = false) :
    ∀ (s : List Rune), c ∈ s → c ∈ s.dropWhile f := by
  intro s
  induction s with
  | nil => intro h; exact h
  | cons a rest ih =>
    intro h
    rw [List.dropWhile_cons]
    split_ifs with ha
    · rcases List.mem_cons.1 h with rfl | h
      · rw [hc] at ha; cases ha
      · exact ih h
    · exact h

theorem mem_trimFunc {f : Rune → Bool} {c : Rune} (hc : f c = false) (s : List Rune)
    (h : c ∈ s) : c ∈ trimFunc f s := by
  unfold trimFunc
  rw [List.mem_reverse]
  apply mem_dropWhile_of_not hc
  rw [List.mem_reverse]
  exact mem_dropWhile_of_not hc s h

/-- Every rune that is not a separator lies in one of the fields. -/
theorem mem_fieldsFunc {f : Rune → Bool} {c : Rune} :
    ∀ (s cur : List Rune), (c ∈ cur ∨ (c ∈ s ∧ f c = false)) →
      ∃ w ∈ fieldsFunc f cur s, c ∈ w := by
  intro s
  induction s with
  | nil =>
    intro cur h
    rcases h with h | ⟨h, _⟩
    · have hne : cur ≠ [] := List.ne_nil_of_mem h
      simp only [fieldsFunc, hne, if_false]
      exact ⟨cur.reverse, List.mem_singleton.2 rfl, List.mem_reverse.2 h⟩
    · cases h
  | cons r rest ih =>
    intro cur h
    simp only [fieldsFunc]
    by_cases hr : f r = true
    · simp only [hr, if_true]
      rcases h with h | ⟨h, hc⟩
      · have hne : cur ≠ [] := List.ne_nil_of_mem h
        simp only [hne, if_false]
        exact ⟨cur.reverse, List.mem_cons_self _ _, List.mem_reverse.2 h⟩
      · have hrest : c ∈ rest := by
          rcases List.mem_cons.1 h with rfl | h
          · rw [hc] at hr; cases hr
          · exact h
        obtain ⟨w, hw, hcw⟩ := ih [] (Or.inr ⟨hrest, hc⟩)
        split_ifs
        · exact ⟨w, hw, hcw⟩
        · exact ⟨w, List.mem_cons_of_mem _ hw, hcw⟩
    · simp only [hr, Bool.false_eq_true, if_false]
      apply ih
      rcases h with h | ⟨h, hc⟩
      · exact Or.inl (List.mem_cons_of_mem _ h)
      · rcases List.mem_cons.1 h with rfl | h
        · exact Or.inl (List.mem_cons_self _ _)
        · exact Or.inr ⟨h, hc⟩

theorem mem_phraseWords {H : Type} (lib : Lib H) (phrase : List Rune) (c : Rune)
    (hc : c ∈ phrase) (hs : lib.isSpace c = false) : ∃ w ∈ phraseWords lib phrase, c ∈ w :=
  mem_fieldsFunc _ [] (Or.inr ⟨mem_trimFunc hs phrase hc, hs⟩)

/-! ## Claims about convertRecoveryPhrase -/

/-- C6: checksum validation. For a phrase that passes the rune, word-count
and dictionary checks and decodes to the bytes `d`, the call succeeds exactly
when `d` has 38 bytes and the first 6 bytes of `HashObject(d[0:32])` are
`d[32:38]`; the seed of a successful call is `d[0:32]`. -/
theorem convertRecoveryPhrase_checksum {H : Type} (lib : Lib H) (phrase : List Rune)
    (d : Bytes)
    (hrunes : ∀ c ∈ phrase, lib.isUpper c = false ∧
      (lib.isLetter c = true ∨ lib.isSpace c = true))
    (hcount : (phraseWords lib phrase).length = 28 ∨ (phraseWords lib phrase).length = 29)
    (hdict : ∀ w ∈ phraseWords lib phrase, w ∈ lib.englishDictionary)
    (hdec : lib.fromString (joinWords (phraseWords lib phrase)) = some d) :
    ((convertRecoveryPhrase lib phrase).2 = none ↔
      d.length = 38 ∧ (lib.hashObject (d.take 32)).take 6 = (d.drop 32).take 6) ∧
    ((convertRecoveryPhrase lib phrase).2 = none →
      (convertRecoveryPhrase lib phrase).1 = d.take 32) := by
  have h1 := (checkRunes_none_iff lib phrase).2 hrunes
  have h2 := (checkWords_none_iff lib _).2 hdict
  have hc : ¬ ((phraseWords lib phrase).length ≠ 28 ∧ (phraseWords lib phrase).length ≠ 29) := by
    omega
  unfold convertRecoveryPhrase
  simp only [h1, hc, if_false, h2, hdec]
  by_cases hlen : d.length = 38
  · have hcopy : copySeed d = d.take 32 := by
      unfold copySeed
      rw [hlen]
      simp
    have hdrop : (d.drop 32).take 6 = d.drop 32 := by
      apply List.take_of_length_le
      rw [List.length_drop]
      omega
    simp only [hlen, ne_eq, not_true_eq_false, if_false, hcopy, false_or, true_and, hdrop]
    by_cases hsum : (lib.hashObject (d.take 32)).take 6 = d.drop 32
    · simp [hsum]
    · simp [hsum]
  · simp [hlen]

/-- C6 at a concrete phrase: 28 times the word `a` decodes, under the small
library, to 38 bytes with a matching checksum. -/
theorem convertRecoveryPhrase_checksum_witness :
    convertRecoveryPhrase toyLib (repeatWord 28 97) = (List.replicate 32 7, none) ∧
    ((convertRecoveryPhrase toyLib (repeatWord 28 97)).2 = none ↔
      (List.replicate 38 7).length = 38 ∧
        (toyLib.hashObject ((List.replicate 38 7).take 32)).take 6
          = ((List.replicate 38 7).drop 32).take 6) ∧
    ((convertRecoveryPhrase toyLib (repeatWord 28 97)).2 = none →
      (convertRecoveryPhrase toyLib (repeatWord 28 97)).1 = (List.replicate 38 7).take 32) :=
  ⟨by decide, convertRecoveryPhrase_checksum toyLib (repeatWord 28 97) (List.replicate 38 7)
    (by decide) (by decide) (by decide) (by rfl)⟩

/-- C7: a phrase holding a rune that is neither a lower-case letter nor
white space is rejected, when every word of the dictionary consists of
lower-case letters only. The error is one of the first four of the source. -/
theorem convertRecoveryPhrase_rejects_non_lowercase {H : Type} (lib : Lib H)
    (isLower : Rune → Bool) (phrase : List Rune) (c : Rune)
    (hdict : ∀ w ∈ lib.englishDictionary, ∀ x ∈ w, isLower x = true)
    (hc : c ∈ phrase) (hlow : isLower c = false) (hspace : lib.isSpace c = false) :
    ∃ e, (convertRecoveryPhrase lib phrase).2 = some e ∧
      (e = .notLowercase ∨ (∃ x, e = .illegalChar x) ∨ e = .wordCount ∨
        ∃ w, e = .unrecognizedWord w) := by
  unfold convertRecoveryPhrase
  cases h1 : checkRunes lib phrase with
  | some e =>
    refine ⟨e, rfl, ?_⟩
    rcases checkRunes_some lib phrase e h1 with h | h
    · exact Or.inl h
    · exact Or.inr (Or.inl h)
  | none =>
    simp only
    split_ifs with hcount
    · exact ⟨.wordCount, rfl, Or.inr (Or.inr (Or.inl rfl))⟩
    · cases h2 : checkWords lib (phraseWords lib phrase) with
      | some e =>
        obtain ⟨w, _, _, he⟩ := checkWords_some lib _ e h2
        exact ⟨e, rfl, Or.inr (Or.inr (Or.inr ⟨w, he⟩))⟩
      | none =>
        exfalso
        obtain ⟨w, hw, hcw⟩ := mem_phraseWords lib phrase c hc hspace
        have := hdict w ((checkWords_none_iff lib _).1 h2 w hw) c hcw
        rw [hlow] at this
        cases this

/-- C7 at a concrete phrase: `a1` under the small library, with the ASCII
lower-case letters as `isLower`. -/
theorem convertRecoveryPhrase_rejects_non_lowercase_witness :
    ∃ e, (convertRecoveryPhrase toyLib [97, 49]).2 = some e ∧
      (e = .notLowercase ∨ (∃ x, e = .illegalChar x) ∨ e = .wordCount ∨
        ∃ w, e = .unrecognizedWord w) :=
  convertRecoveryPhrase_rejects_non_lowercase toyLib (fun c => decide (97 ≤ c ∧ c ≤ 122))
    [97, 49] 49 (by decide) (by decide) (by decide) (by decide)

/-- C8, as amended: a phrase whose runes all pass the rune check (none is
upper case, each is a letter or white space) and whose number of words is
neither 28 nor 29, in particular 27 or 30, is rejected with the word-count
error and the zero seed. -/
theorem convertRecoveryPhrase_word_count {H : Type} (lib : Lib H) (phrase : List Rune)
    (hrunes : ∀ c ∈ phrase, lib.isUpper c = false ∧
      (lib.isLetter c = true ∨ lib.isSpace c = true))
    (hcount : (phraseWords lib phrase).length ≠ 28 ∧ (phraseWords lib phrase).length ≠ 29) :
    convertRecoveryPhrase lib phrase = (zeroSeed, some .wordCount) := by
  have h1 := (checkRunes_none_iff lib phrase).2 hrunes
  unfold convertRecoveryPhrase
  simp only [h1, hcount, ne_eq, not_false_eq_true, and_self, if_true]

/-- C8 as amended, at a concrete phrase: 27 times the word `a`. -/
theorem convertRecoveryPhrase_word_count_witness :
    (phraseWords toyLib (repeatWord 27 97)).length = 27 ∧
    convertRecoveryPhrase toyLib (repeatWord 27 97) = (zeroSeed, some .wordCount) :=
  ⟨by decide, convertRecoveryPhrase_word_count toyLib (repeatWord 27 97) (by decide) (by decide)⟩

/-- C8 as stated fails: the phrase of 27 times the word `A` has 27 words and
is rejected with the lower-case error, not with the word-count error. -/
theorem convertRecoveryPhrase_word_count_counterexample :
    (phraseWords toyLib (repeatWord 27 65)).length = 27 ∧
    convertRecoveryPhrase toyLib (repeatWord 27 65) = (zeroSeed, some .notLowercase) ∧
    convertRecoveryPhrase toyLib (repeatWord 27 65) ≠ (zeroSeed, some .wordCount) :=
  ⟨by decide, by decide, by decide⟩

/-! ## The scan loop -/

theorem writeUsed_eq {H : Type} (W : World H) :
    ∀ (used written w : List (address H)), writeUsed W written used = .ok w →
      w = written ++ used := by
  intro used
  induction used with
  | nil =>
    intro written w h
    simp only [writeUsed, Except.ok.injEq] at h
    simp [h]
  | cons r rest ih =>
    intro written w h
    simp only [writeUsed] at h
    split_ifs at h
    have := ih _ _ h
    simpa using this

/-- What a turn that lets the loop go on went through. -/
theorem loopStep_ok {H : Type} (lib : Lib H) (W : World H) (seed : Bytes) (L : Nat)
    (st st' : LoopState H) (h : loopStep lib W seed L st = .ok st') :
    st.gap ≤ L ∧ W.stopped st.calls = false ∧
    ∃ mx used, highestUsedIndex lib (W.http st.calls) seed st.start st.end_ = .ok (mx, used) ∧
      st' = { start := (st.start + lookup) % u64
              end_ := (st.end_ + lookup) % u64
              detected := (st.detected + used.length) % u64
              gap := (st.end_ + u64 - (if mx > st.last then mx else st.last)) % u64
              last := if mx > st.last then mx else st.last
              calls := st.calls + 1
              derived := st.derived ++ window st.start st.end_
              written := st.written ++ used } := by
  unfold loopStep at h
  split_ifs at h with hgap hstop
  refine ⟨hgap, by simpa using hstop, ?_⟩
  cases hcall : highestUsedIndex lib (W.http st.calls) seed st.start st.end_ with
  | error e =>
    rw [hcall] at h
    cases e <;> cases h
  | ok r =>
    obtain ⟨mx, used⟩ := r
    rw [hcall] at h
    simp only at h
    cases hw : writeUsed W st.written used with
    | error w => rw [hw] at h; cases h
    | ok w =>
      rw [hw] at h
      have hweq := writeUsed_eq W used st.written w hw
      subst hweq
      simp only [Except.ok.injEq] at h
      exact ⟨mx, used, rfl, h.symm⟩

theorem runTurns_succ {H : Type} (lib : Lib H) (W : World H) (seed : Bytes) (L : Nat) :
    ∀ (k : Nat) (st : LoopState H),
      runTurns lib W seed L (k + 1) st =
        match runTurns lib W seed L k st with
        | .error r => .error r
        | .ok st' => loopStep lib W seed L st' := by
  intro k
  induction k with
  | zero =>
    intro st
    simp only [runTurns]
    cases loopStep lib W seed L st <;> rfl
  | succ k ih =>
    intro st
    rw [runTurns]
    cases hs : loopStep lib W seed L st with
    | error r => simp [runTurns, hs]
    | ok st' =>
      simp only
      rw [ih st']
      conv_rhs => rw [runTurns, hs]

/-- A run of `k` turns followed by one more turn. -/
theorem runTurns_succ_ok {H : Type} (lib : Lib H) (W : World H) (seed : Bytes) (L : Nat)
    (k : Nat) (s st : LoopState H) (h : runTurns lib W seed L (k + 1) s = .ok st) :
    ∃ mid, runTurns lib W seed L k s = .ok mid ∧ loopStep lib W seed L mid = .ok st := by
  rw [runTurns_succ] at h
  cases hm : runTurns lib W seed L k s with
  | error r => rw [hm] at h; cases h
  | ok mid => rw [hm] at h; exact ⟨mid, rfl, h⟩

/-- The loop, given fuel for more than the turns already taken, goes on from
the state they reached. -/
theorem scanLoop_of_runTurns {H : Type} (lib : Lib H) (W : World H) (seed : Bytes) (L : Nat) :
    ∀ (k : Nat) (s st : LoopState H) (fuel : Nat), runTurns lib W seed L k s = .ok st →
      scanLoop lib W seed L (k + fuel) s = scanLoop lib W seed L fuel st := by
  intro k
  induction k with
  | zero =>
    intro s st fuel h
    simp only [runTurns, Except.ok.injEq] at h
    subst h
    simp
  | succ k ih =>
    intro s st fuel h
    rw [runTurns] at h
    cases hs : loopStep lib W seed L s with
    | error r => rw [hs] at h; cases h
    | ok s' =>
      rw [hs] at h
      have : k + 1 + fuel = (k + fuel) + 1 := by omega
      rw [this, scanLoop, hs]
      exact ih s' st fuel h

theorem flatMap_range_succ {α : Type} (f : Nat → List α) (n : Nat) :
    (List.range (n + 1)).flatMap f = (List.range n).flatMap f ++ f n := by
  rw [List.range_succ]
  simp [List.flatMap_append]

/-- The bookkeeping of the loop after `k` successful turns. -/
theorem runTurns_log {H : Type} (lib : Lib H) (W : World H) (seed : Bytes) (L start : Nat)
    (hstart : start < u64) :
    ∀ (k : Nat) (st : LoopState H), runTurns lib W seed L k (initState start) = .ok st →
      st.calls = k ∧ st.start = (start + lookup * k) % u64 ∧
      st.end_ = (start + lookup * (k + 1)) % u64 ∧
      st.derived = (List.range k).flatMap (turnWindow start) ∧
      st.written = (List.range k).flatMap (turnRecords lib W seed start) := by
  intro k
  induction k with
  | zero =>
    intro st h
    simp only [runTurns, Except.ok.injEq] at h
    subst h
    refine ⟨rfl, ?_, ?_, rfl, rfl⟩
    · simp [initState, Nat.mod_eq_of_lt hstart]
    · simp [initState]
  | succ k ih =>
    intro st h
    obtain ⟨mid, hmid, hstep⟩ := runTurns_succ_ok lib W seed L k _ st h
    obtain ⟨hc, hs, he, hd, hw⟩ := ih mid hmid
    obtain ⟨_, _, mx, used, hcall, rfl⟩ := loopStep_ok lib W seed L mid st hstep
    have hrec : turnRecords lib W seed start k = used := by
      unfold turnRecords
      rw [← hs, ← he, ← hc, hcall]
    have hwin : turnWindow start k = window mid.start mid.end_ := by
      unfold turnWindow
      rw [← hs, ← he]
    refine ⟨by simp [hc], ?_, ?_, ?_, ?_⟩
    · simp only [hs]
      unfold lookup u64
      omega
    · simp only [he]
      unfold lookup u64
      omega
    · simp only [flatMap_range_succ, hwin, hd]
    · simp only [flatMap_range_succ, hrec, hw]

/-- The `max` of a successful call is the highest index of its records, and
is `0` or an index of the window. -/
theorem highestUsedIndex_maxIndex {H : Type} (lib : Lib H)
    (http : List H → Except String AddressesResp) (seed : Bytes) (start end_ mx : Nat)
    (used : List (address H))
    (hcall : highestUsedIndex lib http seed start end_ = .ok (mx, used)) :
    mx = maxIndex used ∧ (mx = 0 ∨ (start ≤ mx ∧ mx < end_)) := by
  obtain ⟨_, resp, _, hresp, _, _, _⟩ := highestUsedIndex_ok lib http seed start end_ mx used hcall
  obtain ⟨hperm, hmem, hall, hex⟩ :=
    highestUsedIndex_records lib http seed start end_ mx used resp hresp hcall
  constructor
  · symm
    apply maxIndex_eq
    · intro r hr
      obtain ⟨a, ha, hidx, _⟩ := hmem r hr
      rw [hidx]
      exact hall a ha
    · rcases hex with h0 | ⟨a, ha, hm⟩
      · exact Or.inl h0
      · right
        have : mx ∈ used.map (fun r => r.index) := by
          rw [hperm.mem_iff, hm]
          exact List.mem_map.2 ⟨a, ha, rfl⟩
        obtain ⟨r, hr, hre⟩ := List.mem_map.1 this
        exact ⟨r, hr, hre⟩
  · rcases hex with h0 | ⟨a, _, hm⟩
    · exact Or.inl h0
    · rw [hm]
      exact usageMap_zero_or_lt lib seed start end_ a.Address

/-- After `k` successful turns `last` is the highest index written, and as
long as the window end has not wrapped it lies below the window end and `gap`
is their difference. -/
theorem runTurns_last {H : Type} (lib : Lib H) (W : World H) (seed : Bytes) (L start : Nat)
    (hstart : start < u64) :
    ∀ (k : Nat) (st : LoopState H), runTurns lib W seed L k (initState start) = .ok st →
      st.last = maxIndex st.written ∧
      (start + lookup * k < u64 →
        (st.last = 0 ∨ st.last < start + lookup * k) ∧
        (1 ≤ k → st.gap = start + lookup * k - st.last ∧ st.last < start + lookup * k)) := by
  intro k
  induction k with
  | zero =>
    intro st h
    simp only [runTurns, Except.ok.injEq] at h
    subst h
    refine ⟨rfl, fun _ => ⟨Or.inl rfl, fun h => absurd h (by omega)⟩⟩
  | succ k ih =>
    intro st h
    obtain ⟨mid, hmid, hstep⟩ := runTurns_succ_ok lib W seed L k _ st h
    obtain ⟨_, hs, he, _, _⟩ := runTurns_log lib W seed L start hstart k mid hmid
    obtain ⟨hlast, hbound⟩ := ih mid hmid
    obtain ⟨_, _, mx, used, hcall, rfl⟩ := loopStep_ok lib W seed L mid st hstep
    obtain ⟨hmx, hrange⟩ := highestUsedIndex_maxIndex lib _ seed _ _ mx used hcall
    constructor
    · simp only [maxIndex_append, ← hlast, ← hmx]
      split_ifs with hgt
      · exact (max_eq_right (by omega)).symm
      · exact (max_eq_left (by omega)).symm
    · intro hno
      simp only
      unfold lookup u64 at *
      have hb := (hbound (by omega)).1
      rw [hs, he] at hrange
      rw [he]
      have h1 : (start + 250 * k) % 2 ^ 64 = start + 250 * k :=
        Nat.mod_eq_of_lt (by omega)
      have h2 : (start + 250 * (k + 1)) % 2 ^ 64 = start + 250 * (k + 1) :=
        Nat.mod_eq_of_lt hno
      rw [h1, h2] at hrange
      rw [h2]
      split_ifs with hgt
      · refine ⟨Or.inr (by omega), fun _ => ⟨?_, by omega⟩⟩
        omega
      · refine ⟨by omega, fun _ => ⟨?_, by omega⟩⟩
        omega

/-- A turn calls `highestUsedIndex` exactly when the loop condition holds and
the interrupt flag is not set. -/
theorem loopStep_calls {H : Type} (lib : Lib H) (W : World H) (seed : Bytes) (L : Nat)
    (st : LoopState H) (hflag : W.stopped st.calls = false) :
    (afterTurn (loopStep lib W seed L st)).calls = st.calls + 1 ↔ st.gap ≤ L := by
  unfold loopStep
  by_cases hgap : st.gap ≤ L
  · simp only [hgap, not_true_eq_false, if_false, hflag, Bool.false_eq_true, iff_true]
    cases hcall : highestUsedIndex lib (W.http st.calls) seed st.start st.end_ with
    | error e => cases e <;> rfl
    | ok r =>
      obtain ⟨mx, used⟩ := r
      simp only
      cases hw : writeUsed W st.written used <;> rfl
  · simp only [hgap, not_false_eq_true, if_true, iff_false, afterTurn]
    omega

/-- A call answered with success and no address returns `max = 0` and no
record. -/
theorem highestUsedIndex_silent {H : Type} (lib : Lib H)
    (http : List H → Except String AddressesResp) (seed : Bytes) (start end_ : Nat)
    (hcap : (end_ + u64 - start) % u64 ≤ maxSliceCap)
    (hsilent : ∀ req, ∃ msg, http req = .ok { Message := msg, Type_ := "success", Addresses := [] }) :
    highestUsedIndex lib http seed start end_ = .ok (0, []) := by
  obtain ⟨msg, hmsg⟩ := hsilent (batchAddresses lib seed start end_)
  unfold highestUsedIndex
  rw [if_neg (by omega)]
  simp only [hmsg, ne_eq, not_true_eq_false, if_false, collectUsed]
  rfl

/-- The indices derived in the first `k` turns, as long as the window end
has not wrapped: those from `start` to below `start + 250 k`. -/
theorem mem_turnWindows (start k i : Nat) (hno : start + lookup * k < u64) :
    i ∈ (List.range k).flatMap (turnWindow start) ↔ start ≤ i ∧ i < start + lookup * k := by
  simp only [List.mem_flatMap, List.mem_range, turnWindow, mem_window]
  unfold lookup u64 at *
  constructor
  · rintro ⟨j, hj, h1, h2⟩
    have e1 : (start + 250 * j) % 2 ^ 64 = start + 250 * j := Nat.mod_eq_of_lt (by omega)
    have e2 : (start + 250 * (j + 1)) % 2 ^ 64 = start + 250 * (j + 1) :=
      Nat.mod_eq_of_lt (by omega)
    rw [e1] at h1
    rw [e2] at h2
    omega
  · rintro ⟨h1, h2⟩
    refine ⟨(i - start) / 250, by omega, ?_, ?_⟩
    · have e1 : (start + 250 * ((i - start) / 250)) % 2 ^ 64 = start + 250 * ((i - start) / 250) :=
        Nat.mod_eq_of_lt (by omega)
      rw [e1]
      omega
    · have e2 : (start + 250 * ((i - start) / 250 + 1)) % 2 ^ 64
          = start + 250 * ((i - start) / 250 + 1) := Nat.mod_eq_of_lt (by omega)
      rw [e2]
      omega

/-! ## Claims about the scan loop of main -/

/-- C1: stopping rule. After `k ≥ 1` batches that all succeeded, with
`start + 250 k` below `2 ^ 64`, `last` is the highest index among the records
returned in batches `1..k` (`0` if there is none), `gap` is
`start + 250 k - last` with `last` below `start + 250 k`, and, the interrupt
flag not being set, batch `k + 1` is executed exactly when `gap ≤ L`. -/
theorem scan_stopping_rule {H : Type} (lib : Lib H) (W : World H) (seed : Bytes)
    (L start k : Nat) (st : LoopState H)
    (hk : 1 ≤ k) (hno : start + lookup * k < u64)
    (hrun : runTurns lib W seed L k (initState start) = .ok st)
    (hflag : W.stopped k = false) :
    st.last = maxIndex ((List.range k).flatMap (turnRecords lib W seed start)) ∧
    st.gap = start + lookup * k - st.last ∧ st.last < start + lookup * k ∧
    ((afterTurn (loopStep lib W seed L st)).calls = k + 1 ↔ st.gap ≤ L) := by
  have hstart : start < u64 := by omega
  obtain ⟨hc, _, _, _, hw⟩ := runTurns_log lib W seed L start hstart k st hrun
  obtain ⟨hlast, hbound⟩ := runTurns_last lib W seed L start hstart k st hrun
  obtain ⟨hgap, hlt⟩ := (hbound hno).2 hk
  refine ⟨by rw [hlast, hw], hgap, hlt, ?_⟩
  rw [← hc] at hflag
  have := loopStep_calls lib W seed L st hflag
  rwa [hc] at this

/-- C1 at the concrete scan of the specification: start 0, lookahead 300,
indices 5 and 12 reported in the window `[0, 250)` and nothing afterwards.
The records 5 and 12 are written in that order, `last` is 12, `gap` is 238
after the first batch and 488 after the second, and the loop ends after two
batches. -/
theorem scan_stopping_rule_witness :
    runTurns toyLib fiveTwelve [] 300 1 (initState 0)
      = .ok ⟨250, 500, 2, 238, 12, 1, window 0 250, [⟨5, 5⟩, ⟨12, 12⟩]⟩ ∧
    runTurns toyLib fiveTwelve [] 300 2 (initState 0)
      = .ok ⟨500, 750, 2, 488, 12, 2, window 0 250 ++ window 250 500, [⟨5, 5⟩, ⟨12, 12⟩]⟩ ∧
    scanLoop toyLib fiveTwelve [] 300 3 (initState 0)
      = some (⟨500, 750, 2, 488, 12, 2, window 0 250 ++ window 250 500, [⟨5, 5⟩, ⟨12, 12⟩]⟩,
          .gapExceeded) ∧
    ((12 : Nat) = maxIndex ((List.range 1).flatMap (turnRecords toyLib fiveTwelve [] 0)) ∧
      (238 : Nat) = 0 + lookup * 1 - 12 ∧ (12 : Nat) < 0 + lookup * 1 ∧
      ((afterTurn (loopStep toyLib fiveTwelve [] 300
          ⟨250, 500, 2, 238, 12, 1, window 0 250, [⟨5, 5⟩, ⟨12, 12⟩]⟩)).calls = 1 + 1
        ↔ 238 ≤ 300)) ∧
    ((12 : Nat) = maxIndex ((List.range 2).flatMap (turnRecords toyLib fiveTwelve [] 0)) ∧
      (488 : Nat) = 0 + lookup * 2 - 12 ∧ (12 : Nat) < 0 + lookup * 2 ∧
      ((afterTurn (loopStep toyLib fiveTwelve [] 300
          ⟨500, 750, 2, 488, 12, 2, window 0 250 ++ window 250 500,
            [⟨5, 5⟩, ⟨12, 12⟩]⟩)).calls = 2 + 1
        ↔ 488 ≤ 300)) :=
  ⟨by rfl, by rfl, by rfl,
    scan_stopping_rule toyLib fiveTwelve [] 300 0 1
      ⟨250, 500, 2, 238, 12, 1, window 0 250, [⟨5, 5⟩, ⟨12, 12⟩]⟩
      (by decide) (by decide) (by rfl) rfl,
    scan_stopping_rule toyLib fiveTwelve [] 300 0 2
      ⟨500, 750, 2, 488, 12, 2, window 0 250 ++ window 250 500, [⟨5, 5⟩, ⟨12, 12⟩]⟩
      (by decide) (by decide) (by rfl) rfl⟩

/-- C2 as stated fails: a scan started at index 1000 with lookahead 500 and
no used address ends on `gap > L` after one batch, with `gap = 1250`. The
final window is `[1000, 1250)`; index 750 is one of the 500 indices below its
end and was not derived in this scan. -/
theorem scan_resumed_gap_limit :
    scanLoop toyLib silentWorld [] 500 2 (initState 1000)
      = some (⟨1250, 1500, 0, 1250, 0, 1, window 1000 1250, []⟩, .gapExceeded) ∧
    750 ∈ window (1250 - 500) 1250 ∧ 750 ∉ window 1000 1250 :=
  ⟨by rfl, by decide, by decide⟩

/-- C9, as amended: with lookahead 0, a service that never reports a used
address, the interrupt flag not set at the first turn and a start index
other than `2 ^ 64 - 250`, the loop calls `highestUsedIndex` once and then
ends on its condition. -/
theorem scan_lookahead_zero {H : Type} (lib : Lib H) (W : World H) (seed : Bytes)
    (start fuel : Nat) (hstart : start < u64) (hne : start ≠ u64 - lookup)
    (hsilent : ∀ n req, ∃ msg,
      W.http n req = .ok { Message := msg, Type_ := "success", Addresses := [] })
    (hflag : W.stopped 0 = false) :
    ∃ st, scanLoop lib W seed 0 (fuel + 2) (initState start) = some (st, .gapExceeded) ∧
      st.calls = 1 ∧ st.derived = window start ((start + lookup) % u64) ∧ st.written = [] := by
  have hcall : highestUsedIndex lib (W.http 0) seed start ((start + lookup) % u64)
      = .ok (0, []) := by
    apply highestUsedIndex_silent lib _ seed _ _ _ (hsilent 0)
    unfold u64 lookup maxSliceCap at *
    omega
  have hstep : loopStep lib W seed 0 (initState start) =
      .ok { start := (start + lookup) % u64
            end_ := ((start + lookup) % u64 + lookup) % u64
            detected := 0
            gap := (start + lookup) % u64
            last := 0
            calls := 1
            derived := window start ((start + lookup) % u64)
            written := [] } := by
    unfold loopStep
    simp only [initState, le_refl, not_true_eq_false, if_false, hflag, Bool.false_eq_true,
      hcall, writeUsed]
    rw [Except.ok.injEq, LoopState.mk.injEq]
    refine ⟨rfl, rfl, ?_, ?_, ?_, rfl, rfl, rfl⟩
    · simp only [List.length_nil, Nat.add_zero, Nat.zero_mod]
    · simp only [gt_iff_lt, lt_self_iff_false, if_false, Nat.sub_zero]
      have hlt : (start + lookup) % u64 < u64 := Nat.mod_lt _ (by unfold u64; omega)
      rw [Nat.add_mod_right]
      exact Nat.mod_eq_of_lt hlt
    · simp only [gt_iff_lt, lt_self_iff_false, if_false]
  refine ⟨⟨(start + lookup) % u64, ((start + lookup) % u64 + lookup) % u64, 0,
    (start + lookup) % u64, 0, 1, window start ((start + lookup) % u64), []⟩, ?_, rfl, rfl, rfl⟩
  rw [scanLoop, hstep]
  simp only
  rw [scanLoop]
  unfold loopStep
  have hpos : ¬ (start + lookup) % u64 ≤ 0 := by
    unfold u64 lookup at *
    omega
  simp only [hpos, not_false_eq_true, if_true]

/-- C9 as amended, at a concrete scan: start 0 under the small library. -/
theorem scan_lookahead_zero_witness :
    ∃ st, scanLoop toyLib silentWorld [] 0 (0 + 2) (initState 0) = some (st, .gapExceeded) ∧
      st.calls = 1 ∧ st.derived = window 0 ((0 + lookup) % u64) ∧ st.written = [] :=
  scan_lookahead_zero toyLib silentWorld [] 0 0 (by decide) (by decide)
    (fun _ _ => ⟨"", rfl⟩) rfl

/-- C9 as stated fails: from the start index `2 ^ 64 - 250` the first window
end wraps to 0, `gap` stays 0 after the first batch, and the loop calls
`highestUsedIndex` a second time, for the window `[0, 250)`. -/
theorem scan_lookahead_zero_counterexample :
    initState (H := Nat) (u64 - lookup)
      = ⟨18446744073709551366, 0, 0, 0, 0, 0, [], []⟩ ∧
    scanLoop toyLib silentWorld [] 0 3 (initState (u64 - lookup))
      = some (⟨250, 500, 0, 250, 0, 2, window 0 250, []⟩, .gapExceeded) :=
  ⟨by rfl, by rfl⟩

/-- C10: cancellation. When `N` batches have succeeded, the loop condition
holds and the interrupt flag is read set at the top of turn `N + 1`, the loop
ends there by its `break`: `highestUsedIndex` was called `N` times, the
indices derived and looked up are those of the windows of batches `1..N`, and
the records passed to the writer are those of batches `1..N` in batch
order. -/
theorem scan_cancellation {H : Type} (lib : Lib H) (W : World H) (seed : Bytes)
    (L start N fuel : Nat) (st : LoopState H) (hstart : start < u64)
    (hrun : runTurns lib W seed L N (initState start) = .ok st)
    (hgap : st.gap ≤ L) (hflag : W.stopped N = true) :
    scanLoop lib W seed L (N + (fuel + 1)) (initState start) = some (st, .cancelled) ∧
    st.calls = N ∧
    st.derived = (List.range N).flatMap (turnWindow start) ∧
    st.written = (List.range N).flatMap (turnRecords lib W seed start) := by
  obtain ⟨hc, _, _, hd, hw⟩ := runTurns_log lib W seed L start hstart N st hrun
  refine ⟨?_, hc, hd, hw⟩
  rw [scanLoop_of_runTurns lib W seed L N _ st (fuel + 1) hrun, scanLoop]
  unfold loopStep
  simp only [hgap, not_true_eq_false, if_false, hc, hflag, if_true]

/-- C10 at a concrete scan: indices 5 and 12 reported in the first batch,
the interrupt flag set from the top of the second turn on. -/
theorem scan_cancellation_witness :
    scanLoop toyLib (interruptedAt 1) [] 300 (1 + (0 + 1)) (initState 0)
      = some (⟨250, 500, 2, 238, 12, 1, window 0 250, [⟨5, 5⟩, ⟨12, 12⟩]⟩, .cancelled) ∧
    (1 : Nat) = 1 ∧
    window 0 250 = (List.range 1).flatMap (turnWindow 0) ∧
    ([⟨5, 5⟩, ⟨12, 12⟩] : List (address Nat))
      = (List.range 1).flatMap (turnRecords toyLib (interruptedAt 1) [] 0) :=
  scan_cancellation toyLib (interruptedAt 1) [] 300 0 1 0
    ⟨250, 500, 2, 238, 12, 1, window 0 250, [⟨5, 5⟩, ⟨12, 12⟩]⟩ (by decide) (by rfl)
    (by decide) rfl

/-! ## Further claims about the scan loop of main -/

/-- C12, as amended: for a batch after the first, without wraparound of its
window end `E`: when the batch reveals a used index higher than the previous
`last`, the new `gap` is `E - last`, at most 250, and is smaller than the gap
after the preceding batch exactly when `last` rose by more than 250; when it
reveals none, `last` stays and `gap` grows by exactly 250. -/
theorem scan_gap_step {H : Type} (lib : Lib H) (W : World H) (seed : Bytes)
    (L start k : Nat) (st st' : LoopState H) (hk : 1 ≤ k)
    (hno : start + lookup * (k + 1) < u64)
    (hrun : runTurns lib W seed L k (initState start) = .ok st)
    (hstep : loopStep lib W seed L st = .ok st') :
    st.last ≤ st'.last ∧
    (st.last < st'.last →
      st'.gap = start + lookup * (k + 1) - st'.last ∧ 1 ≤ st'.gap ∧ st'.gap ≤ lookup ∧
      (st'.gap < st.gap ↔ st.last + lookup < st'.last)) ∧
    (st'.last = st.last → st'.gap = st.gap + lookup) := by
  have hstart : start < u64 := by omega
  obtain ⟨_, hs, he, _, _⟩ := runTurns_log lib W seed L start hstart k st hrun
  obtain ⟨_, hbound⟩ := runTurns_last lib W seed L start hstart k st hrun
  have hno' : start + lookup * k < u64 := by unfold lookup at *; omega
  obtain ⟨hgap, hlt⟩ := (hbound hno').2 hk
  obtain ⟨_, _, mx, used, hcall, rfl⟩ := loopStep_ok lib W seed L st st' hstep
  obtain ⟨_, hrange⟩ := highestUsedIndex_maxIndex lib _ seed _ _ mx used hcall
  simp only
  unfold lookup u64 at *
  have e1 : (start + 250 * k) % 2 ^ 64 = start + 250 * k := Nat.mod_eq_of_lt hno'
  have e2 : (start + 250 * (k + 1)) % 2 ^ 64 = start + 250 * (k + 1) := Nat.mod_eq_of_lt hno
  rw [e1] at hs
  rw [e2] at he
  rw [hs, he] at hrange
  rw [he]
  split_ifs with hgt
  · refine ⟨by omega, fun _ => ⟨by omega, by omega, by omega, by omega⟩, fun h => by omega⟩
  · refine ⟨le_rfl, fun h => absurd h (by omega), fun _ => by omega⟩

/-- C12 as amended, at a concrete scan: the second batch of the scan with
indices 5 and 12 reveals no higher index and the gap grows from 238 to 488. -/
theorem scan_gap_step_witness :
    (12 : Nat) ≤ 12 ∧
    ((12 : Nat) < 12 →
      (488 : Nat) = 0 + lookup * (1 + 1) - 12 ∧ 1 ≤ 488 ∧ 488 ≤ lookup ∧
      ((488 : Nat) < 238 ↔ 12 + lookup < 12)) ∧
    ((12 : Nat) = 12 → (488 : Nat) = 238 + lookup) :=
  scan_gap_step toyLib fiveTwelve [] 300 0 1
    ⟨250, 500, 2, 238, 12, 1, window 0 250, [⟨5, 5⟩, ⟨12, 12⟩]⟩
    ⟨500, 750, 2, 488, 12, 2, window 0 250 ++ window 250 500, [⟨5, 5⟩, ⟨12, 12⟩]⟩
    (by decide) (by decide) (by rfl) (by rfl)

/-- C12 as stated fails: index 249 is reported in the first batch and index
250 in the second. The second batch reveals a higher used index, and the gap
after it, 250, is larger than the gap after the first batch, 1. -/
theorem scan_gap_step_counterexample :
    runTurns toyLib adjacent [] 300 1 (initState 0)
      = .ok ⟨250, 500, 1, 1, 249, 1, window 0 250, [⟨249, 249⟩]⟩ ∧
    runTurns toyLib adjacent [] 300 2 (initState 0)
      = .ok ⟨500, 750, 2, 250, 250, 2, window 0 250 ++ window 250 500,
          [⟨249, 249⟩, ⟨250, 250⟩]⟩ ∧
    (249 : Nat) < 250 ∧ ¬ ((250 : Nat) < 1) :=
  ⟨by rfl, by rfl, by decide, by decide⟩

/-- C15: after `k ≥ 1` successful batches, whatever the service answered,
with `start + 250 k` below `2 ^ 64`: every window run so far had
`end = start + 250` without wrapping, `last` is below the end `start + 250 k`
of the last window, and `gap` is their difference, computed without
underflow and at least 1. -/
theorem scan_last_below_end {H : Type} (lib : Lib H) (W : World H) (seed : Bytes)
    (L start k : Nat) (st : LoopState H) (hk : 1 ≤ k) (hno : start + lookup * k < u64)
    (hrun : runTurns lib W seed L k (initState start) = .ok st) :
    st.last < start + lookup * k ∧
    st.gap = start + lookup * k - st.last ∧
    (start + lookup * k + u64 - st.last) % u64 = start + lookup * k - st.last ∧
    1 ≤ st.gap ∧
    st.start = start + lookup * k ∧
    (∀ j, j < k →
      turnWindow start j = window (start + lookup * j) (start + lookup * j + lookup)) := by
  have hstart : start < u64 := by omega
  obtain ⟨_, hs, _, _, _⟩ := runTurns_log lib W seed L start hstart k st hrun
  obtain ⟨_, hbound⟩ := runTurns_last lib W seed L start hstart k st hrun
  obtain ⟨hgap, hlt⟩ := (hbound hno).2 hk
  refine ⟨hlt, hgap, ?_, by omega, ?_, ?_⟩
  · unfold u64 at *
    omega
  · rw [hs]
    exact Nat.mod_eq_of_lt hno
  · intro j hj
    unfold turnWindow
    unfold lookup u64 at *
    have e1 : (start + 250 * j) % 2 ^ 64 = start + 250 * j := Nat.mod_eq_of_lt (by omega)
    have e2 : (start + 250 * (j + 1)) % 2 ^ 64 = start + 250 * j + 250 :=
      (Nat.mod_eq_of_lt (by omega)).trans (by omega)
    rw [e1, e2]

/-- C15 at a concrete scan: after the first batch of the scan with indices 5
and 12, `last = 12` is below the window end 250 and `gap = 238`. -/
theorem scan_last_below_end_witness :
    (12 : Nat) < 0 + lookup * 1 ∧
    (238 : Nat) = 0 + lookup * 1 - 12 ∧
    (0 + lookup * 1 + u64 - 12) % u64 = 0 + lookup * 1 - 12 ∧
    1 ≤ 238 ∧
    (250 : Nat) = 0 + lookup * 1 ∧
    (∀ j, j < 1 →
      turnWindow 0 j = window (0 + lookup * j) (0 + lookup * j + lookup)) :=
  scan_last_below_end toyLib fiveTwelve [] 300 0 1
    ⟨250, 500, 2, 238, 12, 1, window 0 250, [⟨5, 5⟩, ⟨12, 12⟩]⟩ (by decide) (by decide)
    (by rfl)

/-- Every address of the response that `LoadString` accepts has its record
in the result of the response loop, and so have the records collected
before. -/
theorem collectUsed_mem {H : Type} (lib : Lib H) (usage : String → Nat) :
    ∀ (l : List AddressUsage) (mx : Nat) (used : List (address H)) (m : Nat)
      (u : List (address H)),
      collectUsed lib usage l mx used = .ok (m, u) →
      (∀ r ∈ used, r ∈ u) ∧
      (∀ a ∈ l, ∀ uh, lib.loadString a.Address = some uh → ⟨usage a.Address, uh⟩ ∈ u) := by
  intro l
  induction l with
  | nil =>
    intro mx used m u h
    simp only [collectUsed, Except.ok.injEq, Prod.mk.injEq] at h
    obtain ⟨_, rfl⟩ := h
    exact ⟨fun r hr => hr, fun a ha => absurd ha (List.not_mem_nil a)⟩
  | cons a rest ih =>
    intro mx used m u h
    simp only [collectUsed] at h
    cases hload : lib.loadString a.Address with
    | none => rw [hload] at h; cases h
    | some uh =>
      rw [hload] at h
      obtain ⟨hused, hrest⟩ := ih _ _ _ _ h
      refine ⟨fun r hr => hused r (List.mem_append_left _ hr), ?_⟩
      intro b hb uh' hb'
      rcases List.mem_cons.1 hb with rfl | hb
      · rw [hload] at hb'
        cases hb'
        exact hused _ (List.mem_append_right _ (List.mem_singleton.2 rfl))
      · exact hrest b hb uh' hb'

/-! ## Further claims about highestUsedIndex -/

/-- C16, as amended: when the service answers with success, `LoadString`
accepts every address of the response and one of them, `a`, is not derived
for the batch, `highestUsedIndex` returns; `a` reads as index 0 in the usage
map and has a record of index 0 among those returned, which `main` passes to
the writer with the index field `0`; and the returned `max` is the one
returned for the same response without `a`. -/
theorem highestUsedIndex_foreign {H : Type} (lib : Lib H)
    (http : List H → Except String AddressesResp) (seed : Bytes) (start end_ : Nat)
    (resp : AddressesResp) (a : AddressUsage) (uh : H)
    (hcap : (end_ + u64 - start) % u64 ≤ maxSliceCap)
    (hresp : http (batchAddresses lib seed start end_) = .ok resp)
    (hty : resp.Type_ = "success")
    (hall : ∀ b ∈ resp.Addresses, ∃ h, lib.loadString b.Address = some h)
    (ha : a ∈ resp.Addresses) (hforeign : a.Address ∉ batchStrings lib seed start end_)
    (hload : lib.loadString a.Address = some uh) :
    ∃ mx used, highestUsedIndex lib http seed start end_ = .ok (mx, used) ∧
      usageMap lib seed start end_ a.Address = 0 ∧
      (⟨0, uh⟩ : address H) ∈ used ∧
      csvFields lib ⟨0, uh⟩ = ["0", lib.str uh] ∧
      (∀ (W : World H) (written : List (address H)), (∀ n, W.writeFails n = false) →
        writeUsed W written used = .ok (written ++ used)) ∧
      ∃ used', highestUsedIndex lib
        (fun _ => .ok { resp with
          Addresses := resp.Addresses.filter (fun b => b.Address ≠ a.Address) })
        seed start end_ = .ok (mx, used') := by
  obtain ⟨mx, used, hcall⟩ :=
    highestUsedIndex_total lib http seed start end_ resp hcap hresp hty hall
  have hzero : usageMap lib seed start end_ a.Address = 0 := by
    rcases usageMap_cases lib seed start end_ a.Address with ⟨h0, _⟩ | ⟨hwin, hstr⟩
    · exact h0
    · exfalso
      apply hforeign
      rw [← hstr]
      exact List.mem_map.2 ⟨_, mem_window.2 hwin, rfl⟩
  obtain ⟨_, resp0, u, hresp0, _, hcol, hsort⟩ :=
    highestUsedIndex_ok lib http seed start end_ mx used hcall
  rw [hresp] at hresp0
  cases hresp0
  have hrec : (⟨0, uh⟩ : address H) ∈ used := by
    rw [hsort, (sortUsed_perm u).mem_iff, ← hzero]
    exact (collectUsed_mem lib _ _ _ _ _ _ hcol).2 a ha uh hload
  obtain ⟨_, _, _, hbound, hattain⟩ := collectUsed_ok lib _ _ _ _ _ _ hcol
  -- the same call on the response without `a`
  have hall' : ∀ b ∈ resp.Addresses.filter (fun b => b.Address ≠ a.Address),
      ∃ h, lib.loadString b.Address = some h :=
    fun b hb => hall b (List.mem_of_mem_filter hb)
  obtain ⟨mx', used', hcall'⟩ := highestUsedIndex_total lib
    (fun _ => .ok { resp with
      Addresses := resp.Addresses.filter (fun b => b.Address ≠ a.Address) })
    seed start end_ _ hcap rfl hty hall'
  obtain ⟨_, resp1, u', hresp1, _, hcol', _⟩ :=
    highestUsedIndex_ok lib _ seed start end_ mx' used' hcall'
  cases hresp1
  obtain ⟨_, _, _, hbound', hattain'⟩ := collectUsed_ok lib _ _ _ _ _ _ hcol'
  have hmx : mx' = mx := by
    apply le_antisymm
    · rcases hattain' with h0 | ⟨b, hb, hm⟩
      · omega
      · rw [hm]
        exact hbound b (List.mem_of_mem_filter hb)
    · rcases hattain with h0 | ⟨b, hb, hm⟩
      · omega
      · by_cases hba : b.Address = a.Address
        · rw [hm, hba, hzero]
          exact Nat.zero_le _
        · rw [hm]
          exact hbound' b (List.mem_filter.2 ⟨hb, by simpa using hba⟩)
  have hzeroField : toString (0 : Nat) = "0" := by decide
  refine ⟨mx, used, hcall, hzero, hrec, ?_, ?_, used', ?_⟩
  · unfold csvFields
    rw [hzeroField]
  · intro W written hw
    exact writeUsed_ok W hw used written
  · rw [← hmx]
    exact hcall'

/-- C16 as amended, at a concrete batch: the window `[0, 250)` answered with
the address of index 5 and the address of index 300, which is not derived for
it. -/
theorem highestUsedIndex_foreign_witness :
    highestUsedIndex toyLib (fun _ => success [toyAddr 5, toyAddr 300]) [] 0 250
      = .ok (5, [⟨0, 300⟩, ⟨5, 5⟩]) ∧
    ∃ mx used, highestUsedIndex toyLib (fun _ => success [toyAddr 5, toyAddr 300]) [] 0 250
        = .ok (mx, used) ∧
      usageMap toyLib [] 0 250 (toyAddr 300).Address = 0 ∧
      (⟨0, 300⟩ : address Nat) ∈ used ∧
      csvFields toyLib ⟨0, 300⟩ = ["0", toyLib.str 300] ∧
      (∀ (W : World Nat) (written : List (address Nat)), (∀ n, W.writeFails n = false) →
        writeUsed W written used = .ok (written ++ used)) ∧
      ∃ used', highestUsedIndex toyLib
        (fun _ => .ok { ({ Message := "", Type_ := "success",
                           Addresses := [toyAddr 5, toyAddr 300] } : AddressesResp) with
          Addresses := [toyAddr 5, toyAddr 300].filter
            (fun b => b.Address ≠ (toyAddr 300).Address) })
        [] 0 250 = .ok (mx, used') :=
  ⟨by rfl,
    highestUsedIndex_foreign toyLib (fun _ => success [toyAddr 5, toyAddr 300]) [] 0 250
      { Message := "", Type_ := "success", Addresses := [toyAddr 5, toyAddr 300] }
      (toyAddr 300) 300 (by decide) rfl rfl
      (by
        intro b hb
        simp only [List.mem_cons, List.mem_singleton, List.not_mem_nil, or_false] at hb
        rcases hb with rfl | rfl
        · exact ⟨5, by rfl⟩
        · exact ⟨300, by rfl⟩)
      (by decide) (by decide) (by rfl)⟩

/-- C16 as stated fails: a successful response that holds the well-formed
address of index 300, not derived for the window `[0, 250)`, and after it a
string that `LoadString` rejects makes `highestUsedIndex` fail. -/
theorem highestUsedIndex_foreign_counterexample :
    toyLib.loadString (toyAddr 300).Address = some 300 ∧
    (toyAddr 300).Address ∉ batchStrings toyLib [] 0 250 ∧
    highestUsedIndex toyLib
      (fun _ => success [toyAddr 300, { Address := "b", UsageType := "" }]) [] 0 250
      = .error (.parseAddress "b") :=
  ⟨by rfl, by decide, by rfl⟩

/-- What the usage map holds: for an index `i` of the window `[start, end)`
whose address no other index of the window shares in string form, it sends
the string form of `generateAddress(seed, i)` to `i` itself, the absolute
index, which is `i - start` only for `start = 0`. -/
theorem usageMap_absolute {H : Type} (lib : Lib H) (seed : Bytes) (start end_ i : Nat)
    (hi : i ∈ window start end_)
    (hinj : ∀ j ∈ window start end_,
      lib.str (lib.generateAddress seed j) = lib.str (lib.generateAddress seed i) → j = i) :
    usageMap lib seed start end_ (lib.str (lib.generateAddress seed i)) = i ∧
    (usageMap lib seed start end_ (lib.str (lib.generateAddress seed i)) = i - start ↔
      start = 0) := by
  have hkey : lib.str (lib.generateAddress seed i) ∈ batchStrings lib seed start end_ :=
    List.mem_map.2 ⟨i, hi, rfl⟩
  obtain ⟨hwin, hstr⟩ := usageMap_of_mem lib seed start end_ _ hkey
  have heq : usageMap lib seed start end_ (lib.str (lib.generateAddress seed i)) = i :=
    hinj _ (mem_window.2 hwin) hstr
  refine ⟨heq, ?_⟩
  rw [heq]
  have := (mem_window.1 hi).1
  omega

/-- The usage map at a concrete window: index 4 of the window `[3, 6)`. -/
theorem usageMap_absolute_witness :
    usageMap toyLib [] 3 6 (toyLib.str (toyLib.generateAddress [] 4)) = 4 ∧
    (usageMap toyLib [] 3 6 (toyLib.str (toyLib.generateAddress [] 4)) = 4 - 3 ↔ 3 = 0) :=
  usageMap_absolute toyLib [] 3 6 4 (by decide) (by decide)

/-- C18 at the failing input: in the window `[3, 6)` the usage map sends the
string form of the address of index 4 to 4, where the index relative to the
start of the window is `4 - 3 = 1`; in the window `[250, 500)` of the second
batch of a scan from 0 it sends that of index 260 to 260, not to 10. -/
theorem usageMap_not_relative :
    4 ∈ window 3 6 ∧
    usageMap toyLib [] 3 6 (toyLib.str (toyLib.generateAddress [] 4)) = 4 ∧
    usageMap toyLib [] 3 6 (toyLib.str (toyLib.generateAddress [] 4)) ≠ 4 - 3 ∧
    260 ∈ window 250 500 ∧
    usageMap toyLib [] 250 500 (toyLib.str (toyLib.generateAddress [] 260)) = 260 ∧
    usageMap toyLib [] 250 500 (toyLib.str (toyLib.generateAddress [] 260)) ≠ 260 - 250 :=
  ⟨by decide, by decide, by decide, by decide, by rfl, by decide⟩

/-! ## Further claims about convertRecoveryPhrase -/

/-- C17: whenever `convertRecoveryPhrase` returns an error, the seed it
returns with it is the zero array of 32 bytes; so it is when the error is the
checksum error, raised after the decoded bytes were copied into the seed. -/
theorem convertRecoveryPhrase_error_seed {H : Type} (lib : Lib H) (phrase : List Rune)
    (e : PhraseError) (h : (convertRecoveryPhrase lib phrase).2 = some e) :
    (convertRecoveryPhrase lib phrase).1 = zeroSeed ∧
    (convertRecoveryPhrase lib phrase).1 = List.replicate 32 0 ∧
    convertRecoveryPhrase lib phrase = (zeroSeed, some e) := by
  have key : (convertRecoveryPhrase lib phrase).1 = zeroSeed := by
    unfold convertRecoveryPhrase at h ⊢
    cases h1 : checkRunes lib phrase with
    | some e1 => rfl
    | none =>
      rw [h1] at h
      simp only at h ⊢
      split_ifs at h ⊢ with hcount
      · rfl
      · cases h2 : checkWords lib (phraseWords lib phrase) with
        | some e2 => rfl
        | none =>
          rw [h2] at h
          simp only at h ⊢
          cases h3 : lib.fromString (joinWords (phraseWords lib phrase)) with
          | none => rfl
          | some d =>
            rw [h3] at h
            simp only at h ⊢
            split_ifs at h ⊢ with hlen hsum
            · rfl
            · rfl
  refine ⟨key, key, ?_⟩
  rw [← key, ← h]

/-- C17 at a concrete phrase: 28 times the word `b` decodes, under the small
library, to 38 bytes whose checksum does not match; the error is the checksum
error and the seed returned is zero, not the decoded bytes. -/
theorem convertRecoveryPhrase_error_seed_witness :
    toyLib.fromString (joinWords (phraseWords toyLib (repeatWord 28 98)))
      = some (List.replicate 32 7 ++ List.replicate 6 0) ∧
    ((convertRecoveryPhrase toyLib (repeatWord 28 98)).1 = zeroSeed ∧
      (convertRecoveryPhrase toyLib (repeatWord 28 98)).1 = List.replicate 32 0 ∧
      convertRecoveryPhrase toyLib (repeatWord 28 98) = (zeroSeed, some .checksum)) :=
  ⟨by rfl, convertRecoveryPhrase_error_seed toyLib (repeatWord 28 98) .checksum (by decide)⟩

/-! ## Claims about the output file -/

/-- C11 at the failing input: indices 5 and 12 are reported in the first
batch and the service cannot be reached in the second. `main` ends by
`log.Fatalln` after both records went to the writer; they make 24 bytes,
which are still in the buffer, and the file is left empty. Had the loop
ended on its condition or by the interrupt flag in the same state, the file
would hold both records. -/
theorem main_fatal_exit_file :
    scanLoop toyLib unreachableAfterFirst [] 300 2 (initState 0)
      = some (⟨250, 500, 2, 238, 12, 2, window 0 250 ++ window 250 500, [⟨5, 5⟩, ⟨12, 12⟩]⟩,
          .fatalLookup (.transport "timeout")) ∧
    csvStream toyLib [⟨5, 5⟩, ⟨12, 12⟩] = "5,aaaaa\n12,aaaaaaaaaaaa\n".data ∧
    fileAtExit toyLib
      ⟨250, 500, 2, 238, 12, 2, window 0 250 ++ window 250 500, [⟨5, 5⟩, ⟨12, 12⟩]⟩
      (.fatalLookup (.transport "timeout")) = [] ∧
    fileAtExit toyLib
      ⟨250, 500, 2, 238, 12, 2, window 0 250 ++ window 250 500, [⟨5, 5⟩, ⟨12, 12⟩]⟩
      .cancelled = "5,aaaaa\n12,aaaaaaaaaaaa\n".data ∧
    fileAtExit toyLib
      ⟨250, 500, 2, 238, 12, 2, window 0 250 ++ window 250 500, [⟨5, 5⟩, ⟨12, 12⟩]⟩
      .gapExceeded = "5,aaaaa\n12,aaaaaaaaaaaa\n".data :=
  ⟨by rfl, by decide, by decide, by decide, by decide⟩

/-! ## Progress of the scan loop -/

/-- A turn that finds the loop condition false ends the loop in place. -/
theorem loopStep_gapExceeded {H : Type} (lib : Lib H) (W : World H) (seed : Bytes) (L : Nat)
    (st : LoopState H) (h : L < st.gap) :
    loopStep lib W seed L st = .error (st, .gapExceeded) := by
  unfold loopStep
  have : ¬ st.gap ≤ L := by omega
  simp only [this, not_false_eq_true, if_true]

/-- A turn whose condition holds, that reads no interrupt, whose call
succeeds and whose writes succeed lets the loop go on. -/
theorem loopStep_total {H : Type} (lib : Lib H) (W : World H) (seed : Bytes) (L : Nat)
    (st : LoopState H) (mx : Nat) (used : List (address H)) (hgap : st.gap ≤ L)
    (hflag : W.stopped st.calls = false) (hw : ∀ n, W.writeFails n = false)
    (hcall : highestUsedIndex lib (W.http st.calls) seed st.start st.end_ = .ok (mx, used)) :
    ∃ st', loopStep lib W seed L st = .ok st' := by
  unfold loopStep
  simp only [hgap, not_true_eq_false, if_false, hflag, Bool.false_eq_true, hcall,
    writeUsed_ok W hw used st.written]
  exact ⟨_, rfl⟩

/-- With the records of every turn below `B`, the window end after `k`
successful turns is at most `max (start + 250) (B + L + 249)`. -/
theorem runTurns_end_le {H : Type} (lib : Lib H) (W : World H) (seed : Bytes)
    (L start B : Nat) (hB : 1 ≤ B) (hno : max start (B + L) + lookup < u64)
    (hbelow : ∀ j, ∀ r ∈ turnRecords lib W seed start j, r.index < B) :
    ∀ (k : Nat) (st : LoopState H), runTurns lib W seed L k (initState start) = .ok st →
      start + lookup * k ≤ max (start + lookup) (B + L + 249) := by
  have hs : start + lookup < u64 := by
    have := le_max_left start (B + L)
    omega
  have hb : B + L + lookup < u64 := by
    have := le_max_right start (B + L)
    omega
  have hstart : start < u64 := by omega
  intro k
  induction k with
  | zero =>
    intro st _
    have := le_max_left (start + lookup) (B + L + 249)
    omega
  | succ k ih =>
    intro st h
    obtain ⟨mid, hmid, hstep⟩ := runTurns_succ_ok lib W seed L k _ st h
    rcases Nat.eq_zero_or_pos k with h0 | hpos
    · subst h0
      have := le_max_left (start + lookup) (B + L + 249)
      omega
    · have hle := ih mid hmid
      have hnok : start + lookup * k < u64 := by
        rcases le_max_iff.1 hle with h1 | h1
        · omega
        · unfold lookup at *
          omega
      obtain ⟨_, _, _, _, hw⟩ := runTurns_log lib W seed L start hstart k mid hmid
      obtain ⟨hlast, hbound⟩ := runTurns_last lib W seed L start hstart k mid hmid
      obtain ⟨hgap, hlt⟩ := (hbound hnok).2 hpos
      obtain ⟨hcond, _⟩ := loopStep_ok lib W seed L mid st hstep
      have hlastB : mid.last ≤ B - 1 := by
        rw [hlast, maxIndex_le_iff, hw]
        intro r hr
        obtain ⟨j, _, hrj⟩ := List.mem_flatMap.1 hr
        have := hbelow j r hrj
        omega
      have := le_max_right (start + lookup) (B + L + 249)
      unfold lookup at *
      omega

/-- With no interrupt, no failing call and no failing write, after any
number of turns the loop either is still running or has found its condition
false at an earlier state. -/
theorem runTurns_or_stopped {H : Type} (lib : Lib H) (W : World H) (seed : Bytes)
    (L start : Nat) (hstart : start < u64)
    (hcancel : ∀ n, W.stopped n = false) (hwrite : ∀ n, W.writeFails n = false)
    (hcalls : ∀ j, ∃ mx used, highestUsedIndex lib (W.http j) seed
      ((start + lookup * j) % u64) ((start + lookup * (j + 1)) % u64) = .ok (mx, used)) :
    ∀ n, (∃ st, runTurns lib W seed L n (initState start) = .ok st) ∨
      ∃ k st, runTurns lib W seed L k (initState start) = .ok st ∧ L < st.gap := by
  intro n
  induction n with
  | zero => exact Or.inl ⟨_, rfl⟩
  | succ n ih =>
    rcases ih with ⟨st, hst⟩ | hstopped
    · by_cases hgap : st.gap ≤ L
      · left
        obtain ⟨hc, hs, he, _, _⟩ := runTurns_log lib W seed L start hstart n st hst
        obtain ⟨mx, used, hcall⟩ := hcalls n
        rw [← hs, ← he, ← hc] at hcall
        obtain ⟨st', hst'⟩ :=
          loopStep_total lib W seed L st mx used hgap (hcancel _) hwrite hcall
        refine ⟨st', ?_⟩
        rw [runTurns_succ, hst]
        exact hst'
      · right
        exact ⟨n, st, hst, by omega⟩
    · exact Or.inr hstopped

/-- C13: termination with bounded overshoot. With no interrupt, no failing
call, no failing write, every record returned of an index below `B ≥ 1`, and
`max (start, B + L) + 250` below `2 ^ 64`, the loop ends on its condition
after some `k ≥ 1` batches, whatever fuel beyond `k` turns it is given, and
the final window end `start + 250 k` is at most
`max (start + 250) (B + L + 249)`. -/
theorem scan_terminates {H : Type} (lib : Lib H) (W : World H) (seed : Bytes)
    (L start B : Nat) (hB : 1 ≤ B) (hno : max start (B + L) + lookup < u64)
    (hcancel : ∀ n, W.stopped n = false) (hwrite : ∀ n, W.writeFails n = false)
    (hcalls : ∀ j, ∃ mx used, highestUsedIndex lib (W.http j) seed
      ((start + lookup * j) % u64) ((start + lookup * (j + 1)) % u64) = .ok (mx, used))
    (hbelow : ∀ j, ∀ r ∈ turnRecords lib W seed start j, r.index < B) :
    ∃ k st, 1 ≤ k ∧
      (∀ fuel, scanLoop lib W seed L (k + (fuel + 1)) (initState start)
        = some (st, .gapExceeded)) ∧
      st.calls = k ∧ st.start = start + lookup * k ∧
      start + lookup * k ≤ max (start + lookup) (B + L + 249) := by
  have hs : start + lookup < u64 := by
    have := le_max_left start (B + L)
    omega
  have hb : B + L + lookup < u64 := by
    have := le_max_right start (B + L)
    omega
  have hstart : start < u64 := by omega
  have hend := runTurns_end_le lib W seed L start B hB hno hbelow
  rcases runTurns_or_stopped lib W seed L start hstart hcancel hwrite hcalls (B + L + 250)
    with ⟨st, hst⟩ | ⟨k, st, hst, hgap⟩
  · exfalso
    have hle := hend _ st hst
    rcases le_max_iff.1 hle with h1 | h1
    · unfold lookup at h1
      omega
    · unfold lookup at h1
      omega
  · have hk : 1 ≤ k := by
      rcases Nat.eq_zero_or_pos k with h0 | hpos
      · subst h0
        simp only [runTurns, Except.ok.injEq] at hst
        subst hst
        simp [initState] at hgap
      · exact hpos
    have hle := hend k st hst
    have hnok : start + lookup * k < u64 := by
      rcases le_max_iff.1 hle with h1 | h1
      · omega
      · unfold lookup at *
        omega
    obtain ⟨hc, hst_start, _, _, _⟩ := runTurns_log lib W seed L start hstart k st hst
    refine ⟨k, st, hk, ?_, hc, ?_, hle⟩
    · intro fuel
      rw [scanLoop_of_runTurns lib W seed L k _ st (fuel + 1) hst, scanLoop,
        loopStep_gapExceeded lib W seed L st hgap]
    · rw [hst_start]
      exact Nat.mod_eq_of_lt hnok

/-- The windows of a scan all have a capacity `make` accepts. -/
theorem turn_cap (start j : Nat) :
    ((start + lookup * (j + 1)) % u64 + u64 - (start + lookup * j) % u64) % u64
      ≤ maxSliceCap := by
  unfold lookup u64 maxSliceCap
  omega

/-- C13 at a concrete scan: start 0, lookahead 300 and a service that never
reports a used address, with `B = 1`. -/
theorem scan_terminates_witness :
    ∃ k st, 1 ≤ k ∧
      (∀ fuel, scanLoop toyLib silentWorld [] 300 (k + (fuel + 1)) (initState 0)
        = some (st, .gapExceeded)) ∧
      st.calls = k ∧ st.start = 0 + lookup * k ∧
      0 + lookup * k ≤ max (0 + lookup) (1 + 300 + 249) :=
  scan_terminates toyLib silentWorld [] 300 0 1 (by decide) (by decide) (fun _ => rfl)
    (fun _ => rfl)
    (fun j => ⟨0, [], highestUsedIndex_silent toyLib (silentWorld.http j) [] _ _ (turn_cap 0 j)
      (fun _ => ⟨"", rfl⟩)⟩)
    (fun j r hr => by
      unfold turnRecords at hr
      rw [highestUsedIndex_silent toyLib (silentWorld.http j) [] _ _ (turn_cap 0 j)
        (fun _ => ⟨"", rfl⟩)] at hr
      cases hr)

/-! ## Completeness of the scan -/

theorem window_eq_range' (s e : Nat) : window s e = List.range' s (e - s) := by
  unfold window
  rw [List.range'_eq_map_range]

theorem window_append (a b c : Nat) (hab : a ≤ b) (hbc : b ≤ c) :
    window a b ++ window b c = window a c := by
  rw [window_eq_range', window_eq_range', window_eq_range']
  have h1 : b = a + (b - a) := by omega
  have h2 : c - a = (c - b) + (b - a) := by omega
  rw [h2]
  conv_lhs => rw [h1]
  simp only [Nat.add_sub_cancel_left]
  have h3 : c - (a + (b - a)) = c - b := by omega
  rw [h3]
  exact List.range'_append_1 a (b - a) (c - b)

theorem window_sorted (s e : Nat) : (window s e).Sorted (· < ·) := by
  rw [window_eq_range']
  exact List.pairwise_lt_range' s (e - s) 1 (by decide)

/-- The indices of the records of a batch that the service answers with the
addresses of the indices of `U`, in any order, are the indices of `U` in the
window, in ascending order; each record carries the address of its index. -/
theorem highestUsedIndex_of_set {H : Type} (lib : Lib H)
    (http : List H → Except String AddressesResp) (seed : Bytes) (start end_ mx : Nat)
    (used : List (address H)) (resp : AddressesResp) (U : Nat → Bool)
    (hinj : ∀ i ∈ window start end_, ∀ j ∈ window start end_,
      lib.generateAddress seed i = lib.generateAddress seed j → i = j)
    (hcodec : ∀ i ∈ window start end_,
      lib.loadString (lib.str (lib.generateAddress seed i)) = some (lib.generateAddress seed i))
    (hresp : http (batchAddresses lib seed start end_) = .ok resp)
    (hU : (resp.Addresses.map (fun a => a.Address)).Perm
      (((window start end_).filter U).map (fun i => lib.str (lib.generateAddress seed i))))
    (hcall : highestUsedIndex lib http seed start end_ = .ok (mx, used)) :
    used.map (fun r => r.index) = (window start end_).filter U ∧
    ∀ r ∈ used, r.addr = lib.generateAddress seed r.index := by
  obtain ⟨hperm, hmem, _, _⟩ :=
    highestUsedIndex_records lib http seed start end_ mx used resp hresp hcall
  obtain ⟨_, _, u, _, _, _, hsort⟩ := highestUsedIndex_ok lib http seed start end_ mx used hcall
  have hstrinj : ∀ i ∈ window start end_, ∀ j ∈ window start end_,
      lib.str (lib.generateAddress seed j) = lib.str (lib.generateAddress seed i) → j = i := by
    intro i hi j hj hs
    have h1 := hcodec i hi
    have h2 := hcodec j hj
    rw [hs, h1] at h2
    exact hinj j hj i hi (Option.some.inj h2).symm
  have husage : ∀ i ∈ window start end_,
      usageMap lib seed start end_ (lib.str (lib.generateAddress seed i)) = i := by
    intro i hi
    obtain ⟨hwin, hstr⟩ := usageMap_of_mem lib seed start end_ _
      (List.mem_map.2 ⟨i, hi, rfl⟩)
    exact hstrinj i hi _ (mem_window.2 hwin) hstr
  constructor
  · have h1 : (resp.Addresses.map (fun a => usageMap lib seed start end_ a.Address)).Perm
        ((window start end_).filter U) := by
      have h2 := hU.map (usageMap lib seed start end_)
      rw [List.map_map, List.map_map] at h2
      have h3 : List.map (usageMap lib seed start end_ ∘
            fun i => lib.str (lib.generateAddress seed i)) ((window start end_).filter U)
          = (window start end_).filter U := by
        conv_rhs => rw [← List.map_id ((window start end_).filter U)]
        apply List.map_congr_left
        intro i hi
        exact husage i (List.mem_of_mem_filter hi)
      rw [h3] at h2
      exact h2
    have hsorted : (used.map (fun r => r.index)).Sorted (· ≤ ·) := by
      rw [hsort]
      exact sortUsed_sorted u
    have hwsorted : ((window start end_).filter U).Sorted (· ≤ ·) :=
      ((window_sorted start end_).filter U).imp (fun h => Nat.le_of_lt h)
    exact List.eq_of_perm_of_sorted (hperm.trans h1) hsorted hwsorted
  · intro r hr
    obtain ⟨a, ha, hidx, hl⟩ := hmem r hr
    have hin : a.Address ∈ batchStrings lib seed start end_ := by
      have : a.Address ∈ resp.Addresses.map (fun a => a.Address) :=
        List.mem_map.2 ⟨a, ha, rfl⟩
      rw [hU.mem_iff] at this
      obtain ⟨i, hi, hia⟩ := List.mem_map.1 this
      exact List.mem_map.2 ⟨i, List.mem_of_mem_filter hi, hia⟩
    obtain ⟨hwin, hstr⟩ := usageMap_of_mem lib seed start end_ a.Address hin
    have hc := hcodec _ (mem_window.2 hwin)
    rw [hstr, hl, ← hidx] at hc
    exact Option.some.inj hc

/-- After `k` successful turns against a service that answers with the
addresses of the indices of `U`, without wraparound: the records written are
those of the indices of `U` from `start` to below `start + 250 k`. -/
theorem runTurns_of_set {H : Type} (lib : Lib H) (W : World H) (seed : Bytes)
    (L start : Nat) (U : Nat → Bool) :
    ∀ (k : Nat) (st : LoopState H), start + lookup * k < u64 →
      (∀ i j, start ≤ i → i < start + lookup * k → start ≤ j → j < start + lookup * k →
        lib.generateAddress seed i = lib.generateAddress seed j → i = j) →
      (∀ i, start ≤ i → i < start + lookup * k →
        lib.loadString (lib.str (lib.generateAddress seed i))
          = some (lib.generateAddress seed i)) →
      (∀ j, j < k → ∀ resp,
        W.http j (batchAddresses lib seed (start + lookup * j) (start + lookup * (j + 1)))
          = .ok resp →
        (resp.Addresses.map (fun a => a.Address)).Perm
          (((window (start + lookup * j) (start + lookup * (j + 1))).filter U).map
            (fun i => lib.str (lib.generateAddress seed i)))) →
      runTurns lib W seed L k (initState start) = .ok st →
      st.written.map (fun r => r.index) = (window start (start + lookup * k)).filter U ∧
      (∀ r ∈ st.written, r.addr = lib.generateAddress seed r.index) ∧
      st.derived = window start (start + lookup * k) := by
  intro k
  induction k with
  | zero =>
    intro st _ _ _ _ h
    simp only [runTurns, Except.ok.injEq] at h
    subst h
    simp [initState, window]
  | succ k ih =>
    intro st hno hinj hcodec horacle h
    have hstart : start < u64 := by omega
    have hno' : start + lookup * k < u64 := by unfold lookup at *; omega
    have hlt : start + lookup * k ≤ start + lookup * (k + 1) := by unfold lookup; omega
    obtain ⟨mid, hmid, hstep⟩ := runTurns_succ_ok lib W seed L k _ st h
    obtain ⟨hc, hs, he, _, _⟩ := runTurns_log lib W seed L start hstart k mid hmid
    obtain ⟨hwr, haddr, hder⟩ := ih mid hno'
      (fun i j hi hi' hj hj' => hinj i j hi (by omega) hj (by omega))
      (fun i hi hi' => hcodec i hi (by omega))
      (fun j hj => horacle j (by omega)) hmid
    obtain ⟨_, _, mx, used, hcall, rfl⟩ := loopStep_ok lib W seed L mid st hstep
    rw [Nat.mod_eq_of_lt hno'] at hs
    rw [Nat.mod_eq_of_lt hno] at he
    rw [hs, he, hc] at hcall
    obtain ⟨_, resp, _, hresp, _, _, _⟩ := highestUsedIndex_ok lib _ seed _ _ mx used hcall
    obtain ⟨hidx, hrec⟩ := highestUsedIndex_of_set lib (W.http k) seed _ _ mx used resp U
      (fun i hi j hj => hinj i j (by have := mem_window.1 hi; omega) (mem_window.1 hi).2
        (by have := mem_window.1 hj; omega) (mem_window.1 hj).2)
      (fun i hi => hcodec i (by have := mem_window.1 hi; omega) (mem_window.1 hi).2)
      hresp (horacle k (by omega) resp hresp) hcall
    refine ⟨?_, ?_, ?_⟩
    · simp only [List.map_append, hwr, hidx]
      rw [← List.filter_append, window_append start _ _ (by omega) hlt]
    · intro r hr
      rcases List.mem_append.1 hr with hr | hr
      · exact haddr r hr
      · exact hrec r hr
    · simp only [hder, hs, he]
      exact window_append start _ _ (by omega) hlt

/-- The codec of the small library reads back what it writes. -/
theorem toyLib_codec (i : Nat) : toyLib.loadString (toyLib.str i) = some i := by
  show (if (String.mk (List.replicate i 'a')).data.all (fun c => c == 'a') then
      some (String.mk (List.replicate i 'a')).length else none) = some i
  have h1 : (List.replicate i 'a').all (fun c => c == 'a') = true := by
    rw [List.all_eq_true]
    intro c hc
    rw [List.eq_of_mem_replicate hc]
    rfl
  have h2 : (String.mk (List.replicate i 'a')).length = i := by
    show (List.replicate i 'a').length = i
    exact List.length_replicate i 'a'
  rw [h2]
  simp only [h1, if_true]

/-- C14: completeness over the scanned range. Against a service that answers
each batch with exactly the batch addresses whose index is in `U`, in any
order, with `generateAddress` injective and the address codec reading back
what it wrote on the scanned range, no wraparound, and `k` batches that
succeeded before the loop ends on its condition: the window of batch `j + 1`
is `[start + 250 j, start + 250 (j + 1))`, the indices derived are those from
`start` to below the final window end `E = start + 250 k`, each once and in
order, and the records written are those of the indices of `U` in
`[start, E)`, each once, in ascending order, each with the address derived at
its index. -/
theorem scan_complete {H : Type} (lib : Lib H) (W : World H) (seed : Bytes)
    (L start k fuel : Nat) (st : LoopState H) (U : Nat → Bool)
    (hno : start + lookup * k < u64)
    (hinj : ∀ i j, start ≤ i → i < start + lookup * k → start ≤ j → j < start + lookup * k →
      lib.generateAddress seed i = lib.generateAddress seed j → i = j)
    (hcodec : ∀ i, start ≤ i → i < start + lookup * k →
      lib.loadString (lib.str (lib.generateAddress seed i)) = some (lib.generateAddress seed i))
    (horacle : ∀ j, j < k → ∀ resp,
      W.http j (batchAddresses lib seed (start + lookup * j) (start + lookup * (j + 1)))
        = .ok resp →
      (resp.Addresses.map (fun a => a.Address)).Perm
        (((window (start + lookup * j) (start + lookup * (j + 1))).filter U).map
          (fun i => lib.str (lib.generateAddress seed i))))
    (hrun : runTurns lib W seed L k (initState start) = .ok st) (hstop : L < st.gap) :
    scanLoop lib W seed L (k + (fuel + 1)) (initState start) = some (st, .gapExceeded) ∧
    (∀ j, j < k →
      turnWindow start j = window (start + lookup * j) (start + lookup * (j + 1))) ∧
    st.derived = window start (start + lookup * k) ∧
    st.written.map (fun r => r.index) = (window start (start + lookup * k)).filter U ∧
    (st.written.map (fun r => r.index)).Sorted (· < ·) ∧
    (∀ r ∈ st.written, r.addr = lib.generateAddress seed r.index) := by
  obtain ⟨hwr, haddr, hder⟩ :=
    runTurns_of_set lib W seed L start U k st hno hinj hcodec horacle hrun
  refine ⟨?_, ?_, hder, hwr, ?_, haddr⟩
  · rw [scanLoop_of_runTurns lib W seed L k _ st (fuel + 1) hrun, scanLoop,
      loopStep_gapExceeded lib W seed L st hstop]
  · intro j hj
    unfold turnWindow
    have e1 : (start + lookup * j) % u64 = start + lookup * j :=
      Nat.mod_eq_of_lt (by unfold lookup at *; omega)
    have e2 : (start + lookup * (j + 1)) % u64 = start + lookup * (j + 1) :=
      Nat.mod_eq_of_lt (by unfold lookup at *; omega)
    rw [e1, e2]
  · rw [hwr]
    exact (window_sorted start _).filter U

/-- C14 at a concrete scan: start 0, lookahead 300, the indices 5, 12 and 260
used. The loop ends after three batches with the records 5, 12 and 260
written in that order. -/
theorem scan_complete_witness :
    scanLoop toyLib (oracleOf usedThree) [] 300 (3 + (0 + 1)) (initState 0)
      = some (⟨750, 1000, 3, 490, 260, 3, window 0 250 ++ window 250 500 ++ window 500 750,
          [⟨5, 5⟩, ⟨12, 12⟩, ⟨260, 260⟩]⟩, .gapExceeded) ∧
    (∀ j, j < 3 →
      turnWindow 0 j = window (0 + lookup * j) (0 + lookup * (j + 1))) ∧
    window 0 250 ++ window 250 500 ++ window 500 750 = window 0 (0 + lookup * 3) ∧
    ([5, 12, 260] : List Nat) = (window 0 (0 + lookup * 3)).filter usedThree ∧
    ([5, 12, 260] : List Nat).Sorted (· < ·) ∧
    (∀ r ∈ ([⟨5, 5⟩, ⟨12, 12⟩, ⟨260, 260⟩] : List (address Nat)),
      r.addr = toyLib.generateAddress [] r.index) :=
  scan_complete toyLib (oracleOf usedThree) [] 300 0 3 0
    ⟨750, 1000, 3, 490, 260, 3, window 0 250 ++ window 250 500 ++ window 500 750,
      [⟨5, 5⟩, ⟨12, 12⟩, ⟨260, 260⟩]⟩ usedThree (by decide)
    (fun _ _ _ _ _ _ h => h) (fun i _ _ => toyLib_codec i)
    (fun j _ resp h => by
      cases h
      apply List.Perm.of_eq
      show List.map (fun a => a.Address) (List.map toyAddr (List.filter usedThree
          (List.map (fun i => i) (window (0 + lookup * j) (0 + lookup * (j + 1))))))
        = List.map (fun i => String.mk (List.replicate i 'a'))
          (List.filter usedThree (window (0 + lookup * j) (0 + lookup * (j + 1))))
      rw [List.map_id', List.map_map]
      rfl)
    (by rfl) (by decide)

/-! ## The gap limit -/

/-- Over ascending indices the usage map keeps, for a key, the highest index
that has it as string form. -/
theorem buildUsage_ge {H : Type} (lib : Lib H) (seed : Bytes) (key : String) :
    ∀ (is : List Nat) (m : String → Nat), is.Pairwise (· < ·) →
      ∀ i ∈ is, lib.str (lib.generateAddress seed i) = key →
        i ≤ buildUsage lib seed is m key := by
  intro is
  induction is with
  | nil => intro m _ i hi; cases hi
  | cons a rest ih =>
    intro m hsorted i hi hkey
    rw [buildUsage_cons]
    rcases List.mem_cons.1 hi with rfl | hi
    · rcases buildUsage_cases lib seed key rest
          (mapSet m (lib.str (lib.generateAddress seed i)) i) with ⟨hval, _⟩ | ⟨hmem, _⟩
      · rw [hval]
        simp [mapSet, hkey]
      · exact Nat.le_of_lt ((List.pairwise_cons.1 hsorted).1 _ hmem)
    · exact ih _ (List.pairwise_cons.1 hsorted).2 i hi hkey

theorem usageMap_ge {H : Type} (lib : Lib H) (seed : Bytes) (start end_ i : Nat)
    (hi : i ∈ window start end_) :
    i ≤ usageMap lib seed start end_ (lib.str (lib.generateAddress seed i)) :=
  buildUsage_ge lib seed _ (window start end_) (fun _ => 0) (window_sorted start end_) i hi rfl

/-- Every turn of a successful run made a successful call for its window. -/
theorem runTurns_calls {H : Type} (lib : Lib H) (W : World H) (seed : Bytes) (L start : Nat)
    (hstart : start < u64) :
    ∀ (k : Nat) (st : LoopState H), runTurns lib W seed L k (initState start) = .ok st →
      ∀ j, j < k → ∃ mx used, highestUsedIndex lib (W.http j) seed
        ((start + lookup * j) % u64) ((start + lookup * (j + 1)) % u64) = .ok (mx, used) := by
  intro k
  induction k with
  | zero => intro st _ j hj; omega
  | succ k ih =>
    intro st h j hj
    obtain ⟨mid, hmid, hstep⟩ := runTurns_succ_ok lib W seed L k _ st h
    rcases Nat.lt_succ_iff_lt_or_eq.1 hj with hlt | rfl
    · exact ih mid hmid j hlt
    · obtain ⟨hc, hs, he, _, _⟩ := runTurns_log lib W seed L start hstart j mid hmid
      obtain ⟨_, _, mx, used, hcall, _⟩ := loopStep_ok lib W seed L mid st hstep
      rw [hs, he, hc] at hcall
      exact ⟨mx, used, hcall⟩

/-- The `max` of every batch of a successful run is at most the final
`last`. -/
theorem runTurns_max_le_last {H : Type} (lib : Lib H) (W : World H) (seed : Bytes)
    (L start k : Nat) (st : LoopState H) (hstart : start < u64)
    (hrun : runTurns lib W seed L k (initState start) = .ok st)
    (j mx : Nat) (used : List (address H)) (hj : j < k)
    (hcall : highestUsedIndex lib (W.http j) seed
      ((start + lookup * j) % u64) ((start + lookup * (j + 1)) % u64) = .ok (mx, used)) :
    mx ≤ st.last := by
  obtain ⟨_, _, _, _, hw⟩ := runTurns_log lib W seed L start hstart k st hrun
  obtain ⟨hlast, _⟩ := runTurns_last lib W seed L start hstart k st hrun
  obtain ⟨hmx, _⟩ := highestUsedIndex_maxIndex lib _ seed _ _ mx used hcall
  have hrec : turnRecords lib W seed start j = used := by
    unfold turnRecords
    rw [hcall]
  rw [hmx, hlast, maxIndex_le_iff]
  intro r hr
  apply (maxIndex_le_iff st.written (maxIndex st.written)).1 le_rfl r
  rw [hw]
  exact List.mem_flatMap.2 ⟨j, List.mem_range.2 hj, by rw [hrec]; exact hr⟩

/-- C2, as amended: when the loop ends on `gap > L` after `k` successful
batches whose final window end `E = start + 250 k` has not wrapped, every
index of `[E - L, E)` that is not below the start index has been derived and
looked up in this scan; for none of them did the response to the batch that
looked it up list the string form of its address; and no record written
carries an index of `[E - L, E)`. For `start ≤ E - L`, in particular for
`start = 0`, these are all `L` indices below `E`. -/
theorem scan_gap_limit {H : Type} (lib : Lib H) (W : World H) (seed : Bytes)
    (L start k fuel : Nat) (st : LoopState H) (hno : start + lookup * k < u64)
    (hrun : runTurns lib W seed L k (initState start) = .ok st) (hstop : L < st.gap) :
    scanLoop lib W seed L (k + (fuel + 1)) (initState start) = some (st, .gapExceeded) ∧
    (∀ i, start + lookup * k - L ≤ i → i < start + lookup * k → start ≤ i → i ∈ st.derived) ∧
    (∀ j, j < k → ∀ resp,
      W.http j (batchAddresses lib seed (start + lookup * j) (start + lookup * (j + 1)))
        = .ok resp →
      ∀ i ∈ window (start + lookup * j) (start + lookup * (j + 1)),
        start + lookup * k - L ≤ i →
        ∀ a ∈ resp.Addresses, a.Address ≠ lib.str (lib.generateAddress seed i)) ∧
    (∀ i, start + lookup * k - L ≤ i → i < start + lookup * k →
      ∀ r ∈ st.written, r.index ≠ i) := by
  have hstart : start < u64 := by omega
  obtain ⟨_, _, _, hd, _⟩ := runTurns_log lib W seed L start hstart k st hrun
  obtain ⟨hlast, hbound⟩ := runTurns_last lib W seed L start hstart k st hrun
  have hk : 1 ≤ k := by
    rcases Nat.eq_zero_or_pos k with h0 | hpos
    · subst h0
      simp only [runTurns, Except.ok.injEq] at hrun
      subst hrun
      simp [initState] at hstop
    · exact hpos
  obtain ⟨hgap, hlt⟩ := (hbound hno).2 hk
  refine ⟨?_, ?_, ?_, ?_⟩
  · rw [scanLoop_of_runTurns lib W seed L k _ st (fuel + 1) hrun, scanLoop,
      loopStep_gapExceeded lib W seed L st hstop]
  · intro i _ hi hs
    rw [hd]
    exact (mem_turnWindows start k i hno).2 ⟨hs, hi⟩
  · intro j hj resp hresp i hi hlo a ha heq
    obtain ⟨mx, used, hcall⟩ := runTurns_calls lib W seed L start hstart k st hrun j hj
    have hmxlast := runTurns_max_le_last lib W seed L start k st hstart hrun j mx used hj hcall
    have e1 : (start + lookup * j) % u64 = start + lookup * j :=
      Nat.mod_eq_of_lt (by unfold lookup at *; omega)
    have e2 : (start + lookup * (j + 1)) % u64 = start + lookup * (j + 1) :=
      Nat.mod_eq_of_lt (by unfold lookup at *; omega)
    rw [e1, e2] at hcall
    obtain ⟨_, _, hall, _⟩ := highestUsedIndex_records lib _ seed _ _ mx used resp hresp hcall
    have h1 := hall a ha
    have h2 := usageMap_ge lib seed _ _ i hi
    rw [← heq] at h2
    omega
  · intro i hlo _ r hr hri
    have hle : r.index ≤ st.last := by
      rw [hlast]
      exact (maxIndex_le_iff st.written (maxIndex st.written)).1 le_rfl r hr
    omega

/-- C2 as amended, at the concrete scan of the specification: start 0,
lookahead 300, indices 5 and 12 reported; the loop ends after two batches
with `gap = 488`, the indices 200 to 499 were all looked up, no response
listed the address of one of them, and none of them was written. -/
theorem scan_gap_limit_witness :
    scanLoop toyLib fiveTwelve [] 300 (2 + (0 + 1)) (initState 0)
      = some (⟨500, 750, 2, 488, 12, 2, window 0 250 ++ window 250 500, [⟨5, 5⟩, ⟨12, 12⟩]⟩,
          .gapExceeded) ∧
    (∀ i, 0 + lookup * 2 - 300 ≤ i → i < 0 + lookup * 2 → 0 ≤ i →
      i ∈ window 0 250 ++ window 250 500) ∧
    (∀ j, j < 2 → ∀ resp,
      fiveTwelve.http j (batchAddresses toyLib [] (0 + lookup * j) (0 + lookup * (j + 1)))
        = .ok resp →
      ∀ i ∈ window (0 + lookup * j) (0 + lookup * (j + 1)),
        0 + lookup * 2 - 300 ≤ i →
        ∀ a ∈ resp.Addresses, a.Address ≠ toyLib.str (toyLib.generateAddress [] i)) ∧
    (∀ i, 0 + lookup * 2 - 300 ≤ i → i < 0 + lookup * 2 →
      ∀ r ∈ ([⟨5, 5⟩, ⟨12, 12⟩] : List (address Nat)), r.index ≠ i) :=
  scan_gap_limit toyLib fiveTwelve [] 300 0 2 0
    ⟨500, 750, 2, 488, 12, 2, window 0 250 ++ window 250 500, [⟨5, 5⟩, ⟨12, 12⟩]⟩
    (by decide) (by rfl) (by decide)

/-- An address listed in the answer to a batch that did not look it up is
read as index 0: start 0, lookahead 300, the address of index 499 listed in
the answer to the first batch. The loop ends after two batches with `last`
still 0 and the record of index 0 written, though index 499 is one of the 300
indices below the final window end 500. -/
theorem scan_reported_ahead :
    scanLoop toyLib reportsAhead [] 300 3 (initState 0)
      = some (⟨500, 750, 1, 500, 0, 2, window 0 250 ++ window 250 500, [⟨0, 499⟩]⟩,
          .gapExceeded) ∧
    499 ∈ window (500 - 300) 500 :=
  ⟨by rfl, by decide⟩

end Scanner
